import Mathlib

/-!
# interval_map: a compressed interval map over `std::map`

Shallow embedding of `src/solution.cpp`.

* The boundary store `std::map<K,V>` is a list of `(key, value)` pairs kept in
  strictly increasing key order (`StdMap.Sorted`).  Functions assume but do not
  require sortedness; theorems state it as a hypothesis and show it preserved.
* An iterator is `Option K`: `some k` is the node whose key is `k`
  (node identity is stable under insertion, as in `std::map`), `none` is the
  past-the-end position `end()`, the header node of the tree.
* By the language rules `std::prev(begin())` has no result: `StdMap.prev`
  returns `none` for it, and `operator[]`, which never decrements `begin()`,
  is embedded with `StdMap.prev` and `StdMap.deref` alone.
* `assign` does evaluate `std::prev(m_map.begin())` (lines 86 and 88), compares
  the result (line 91) and reads through it (lines 96, 98, 112).  What the
  program then does is what the running implementation yields for the
  decrement, and `assign` takes that outcome as its first argument
  (`StdMap.PrevOfBegin`): in libstdc++ the decrement of the leftmost node
  returns that node itself when it is the root of the tree, and the header
  otherwise; a read through the header yields whatever is stored behind it.
* `std::next(end())`, a read through `end()` that did not come from such a
  decrement, and `erase(first, last)` with `first` after `last` are left
  without result (`none`).
-/

namespace StdMap

variable {K V : Type}

/-- Strictly increasing keys: the class invariant of `std::map`. -/
def Sorted [LinearOrder K] (m : List (K × V)) : Prop :=
  m.Pairwise (fun p q => p.1 < q.1)

/-- The position `m.begin()`: the first node, or `end()` when the map is empty. -/
def begin (m : List (K × V)) : Option K :=
  m.head?.map Prod.fst

/-- The position `m.end()`: past the last node. -/
def end_ : Option K := none

/-- The call `m.lower_bound(k)`: the first node whose key is not less than `k`. -/
def lower_bound [LinearOrder K] (m : List (K × V)) (k : K) : Option K :=
  (m.find? (fun p => ¬ p.1 < k)).map Prod.fst

/-- The call `m.upper_bound(k)`: the first node whose key is greater than `k`. -/
def upper_bound [LinearOrder K] (m : List (K × V)) (k : K) : Option K :=
  (m.find? (fun p => k < p.1)).map Prod.fst

/-- The call `std::prev(it)` by the language rules: the node before `it`, the
last node for `end()`; no result (`none`) when `it` is `begin()`. -/
def prev [LinearOrder K] (m : List (K × V)) (it : Option K) : Option (Option K) :=
  match it with
  | none => m.getLast?.map (fun p => some p.1)
  | some k => (m.filter (fun p => p.1 < k)).getLast?.map (fun p => some p.1)

/-- What the running implementation yields for `std::prev(m.begin())`:
`first` is `begin()` itself (libstdc++ when the leftmost node is the root of
the tree); `header junk` is the header node `end()` (libstdc++ when it is
not), `junk` being the pair the reads through the header yield during the
call. -/
inductive PrevOfBegin (K V : Type) where
  | first : PrevOfBegin K V
  | header (junk : K × V) : PrevOfBegin K V
deriving DecidableEq

/-- The call `std::prev(it)` as executed: the language-level result when there
is one, and for `begin()` the outcome `u` of the running implementation. -/
def prevOn [LinearOrder K] (u : PrevOfBegin K V) (m : List (K × V)) (it : Option K) :
    Option K :=
  match prev m it with
  | some p => p
  | none =>
    match u with
    | PrevOfBegin.first => it
    | PrevOfBegin.header _ => end_

/-- The call `std::next(it)`: the node after `it`; undefined (`none`) for `end()`. -/
def next [LinearOrder K] (m : List (K × V)) (it : Option K) : Option (Option K) :=
  match it with
  | none => none
  | some k => some ((m.find? (fun p => k < p.1)).map Prod.fst)

/-- Dereference `*it`: the stored pair of the node; undefined (`none`) for `end()`. -/
def deref [LinearOrder K] (m : List (K × V)) (it : Option K) : Option (K × V) :=
  match it with
  | none => none
  | some k => m.find? (fun p => ¬ p.1 < k ∧ ¬ k < p.1)

/-- Dereference `*it` as executed in `assign`: the stored pair of a node; for
the header, reached by `std::prev(begin())` under the outcome `header junk`,
the pair `junk`. -/
def derefOn [LinearOrder K] (u : PrevOfBegin K V) (m : List (K × V)) (it : Option K) :
    Option (K × V) :=
  match it with
  | some k => m.find? (fun p => ¬ p.1 < k ∧ ¬ k < p.1)
  | none =>
    match u with
    | PrevOfBegin.first => none
    | PrevOfBegin.header junk => some junk

/-- The call `m.insert_or_assign(hint, k, v)`: the node with key `k` carries `v`
afterwards, whether or not it existed; all other nodes are untouched.
The hint only affects speed.  The returned iterator is `some k`. -/
def insert_or_assign [LinearOrder K] (m : List (K × V)) (k : K) (v : V) : List (K × V) :=
  m.filter (fun p => p.1 < k) ++ (k, v) :: m.filter (fun p => k < p.1)

/-- The call `m.insert(std::make_pair(k, v))`: inserts only when no node has key `k`. -/
def insert [LinearOrder K] (m : List (K × V)) (k : K) (v : V) : List (K × V) :=
  if m.any (fun p => ¬ p.1 < k ∧ ¬ k < p.1) then m else insert_or_assign m k v

/-- The call `m.erase(first, last)`: removes the nodes in `[first, last)`.
Undefined (`none`) when `first` lies after `last`. -/
def erase [LinearOrder K] (m : List (K × V)) (first last : Option K) :
    Option (List (K × V)) :=
  match first, last with
  | none, none => some m
  | none, some _ => none
  | some f, none => some (m.filter (fun p => p.1 < f))
  | some f, some t =>
      if t < f then none else some (m.filter (fun p => p.1 < f ∨ ¬ p.1 < t))

end StdMap

/-- The class `interval_map<K,V>`: the default value and the boundary store. -/
structure interval_map (K V : Type) where
  m_valBegin : V
  m_map : List (K × V)
deriving DecidableEq

namespace interval_map

variable {K V : Type}

/-- The constructor `interval_map(V const& val)`: empty store, default `val`. -/
def new (val : V) : interval_map K V :=
  { m_valBegin := val, m_map := [] }

/-- Lines 94-106 of `assign`: close the right edge.
Returns the store and `ptrEnd` as they stand after the block. -/
def rightEdge [LinearOrder K] [DecidableEq V] (u : StdMap.PrevOfBegin K V)
    (s : List (K × V)) (m_valBegin : V) (keyEnd : K) (val : V)
    (ptrEnd prevEnd : Option K) : Option (List (K × V) × Option K) :=
  (StdMap.derefOn u s prevEnd).bind fun pe =>
    if ¬ (pe.2 = val) then
      if ¬ (pe.1 < keyEnd) ∧ ¬ (keyEnd < pe.1) then
        some (s, prevEnd)
      else if ptrEnd = StdMap.begin s then
        some (StdMap.insert_or_assign s keyEnd m_valBegin, some keyEnd)
      else
        some (StdMap.insert_or_assign s keyEnd pe.2, some keyEnd)
    else
      some (s, ptrEnd)

/-- Lines 108-124 of `assign`: close the left edge.
Returns the store and `ptrBegin` as they stand after the block. -/
def leftEdge [LinearOrder K] [DecidableEq V] (u : StdMap.PrevOfBegin K V)
    (s : List (K × V)) (m_valBegin : V) (keyBegin : K) (val : V)
    (ptrBegin prevBegin : Option K) : Option (List (K × V) × Option K) :=
  if ptrBegin ≠ StdMap.begin s then
    (StdMap.derefOn u s prevBegin).bind fun pb =>
      if ¬ (pb.2 = val) then
        let s2 := StdMap.insert_or_assign s keyBegin val
        (StdMap.next s2 (some keyBegin)).map fun it => (s2, it)
      else
        (StdMap.next s prevBegin).map fun it => (s, it)
  else if ¬ (val = m_valBegin) then
    let s2 := StdMap.insert_or_assign s keyBegin val
    (StdMap.next s2 (some keyBegin)).map fun it => (s2, it)
  else
    some (s, ptrBegin)

/-- The member function `assign(keyBegin, keyEnd, val)` (lines 30-130), run on
an implementation whose `std::prev(m_map.begin())` has the outcome `u`.
The result is `none` when the call reaches an operation left without result. -/
def assign [LinearOrder K] [DecidableEq V] (u : StdMap.PrevOfBegin K V)
    (m : interval_map K V) (keyBegin keyEnd : K) (val : V) : Option (interval_map K V) :=
  if ¬ (keyBegin < keyEnd) then
    some m
  else if m.m_map.length = 0 then
    some { m with
      m_map := StdMap.insert (StdMap.insert m.m_map keyBegin val) keyEnd m.m_valBegin }
  else
    let ptrBegin := StdMap.lower_bound m.m_map keyBegin
    let prevBegin := StdMap.prevOn u m.m_map ptrBegin
    let ptrEnd := StdMap.upper_bound m.m_map keyEnd
    let prevEnd := StdMap.prevOn u m.m_map ptrEnd
    if val = m.m_valBegin ∧ prevBegin = prevEnd ∧ prevBegin = StdMap.end_ then
      some m
    else
      (rightEdge u m.m_map m.m_valBegin keyEnd val ptrEnd prevEnd).bind fun r =>
        (leftEdge u r.1 m.m_valBegin keyBegin val ptrBegin prevBegin).bind fun l =>
          if l.2 ≠ StdMap.end_ then
            (StdMap.erase l.1 l.2 r.2).map fun s => { m with m_map := s }
          else
            some { m with m_map := l.1 }

/-- The member function `operator[](key)` (lines 133-140).  The decrement is
applied only when `it` is not `begin()`. -/
def lookup [LinearOrder K] (m : interval_map K V) (key : K) : Option V :=
  let it := StdMap.upper_bound m.m_map key
  if it = StdMap.begin m.m_map then
    some m.m_valBegin
  else
    ((StdMap.prev m.m_map it).bind (StdMap.deref m.m_map)).map Prod.snd

/-- A sequence of `assign` calls, each with the outcome of
`std::prev(m_map.begin())` at that call and applied to the state left by the
previous one. -/
def assignAll [LinearOrder K] [DecidableEq V] (m : interval_map K V) :
    List (StdMap.PrevOfBegin K V × K × K × V) → Option (interval_map K V)
  | [] => some m
  | c :: cs => (m.assign c.1 c.2.1 c.2.2.1 c.2.2.2).bind fun m2 => assignAll m2 cs

/-- The value carried by the last boundary of `X`, or `d` when `X` is empty. -/
def lastVal (d : V) (X : List (K × V)) : V :=
  match X.getLast? with
  | none => d
  | some p => p.2

/-- Interpretation function of the spec: the value of the greatest stored key
not greater than `k`, or the default value `d` if there is none. -/
def valueAt [LinearOrder K] (d : V) (l : List (K × V)) (k : K) : V :=
  lastVal d (l.filter (fun p => ¬ k < p.1))

/-- No boundary's value equals the value in force immediately to its left,
`d` being the value in force before the first boundary. -/
def canonicalFrom : V → List (K × V) → Prop
  | _, [] => True
  | d, p :: t => p.2 ≠ d ∧ canonicalFrom p.2 t

/-- The canonical invariant: the first stored value differs from the default
value and every two adjacent stored values differ. -/
def Canonical (m : interval_map K V) : Prop :=
  (∀ p, m.m_map.head? = some p → p.2 ≠ m.m_valBegin) ∧
    m.m_map.Chain' (fun p q => p.2 ≠ q.2)

/-- The store the general path of `assign` leaves: the boundaries below `b`,
a boundary `(b, v)` unless `v` is already in force left of `b`, a boundary at
`e` restoring the value in force at `e` unless that value is `v`, and the
boundaries above `e`.  `A`, `M`, `C` are the stored boundaries with keys
below `b`, in `[b, e]` and above `e`. -/
def edges [DecidableEq V] (d : V) (A M C : List (K × V)) (b e : K) (v : V) :
    List (K × V) :=
  A ++ ((if lastVal d A = v then [] else [(b, v)]) ++
    ((if lastVal d (A ++ M) = v then [] else [(e, lastVal d (A ++ M))]) ++ C))

/-- The store `assign(b, e, v)` leaves when the first boundary is `p0` and
every stored key lies beyond `e`, so that `prevBegin` and `prevEnd` are both
`std::prev(m_map.begin())`; `l` is the store before the call and `d` the
default value. -/
def beforeFirstStore [LinearOrder K] [DecidableEq V] (u : StdMap.PrevOfBegin K V) (d : V)
    (p0 : K × V) (l : List (K × V)) (b e : K) (v : V) : List (K × V) :=
  match u with
  | StdMap.PrevOfBegin.first =>
    if p0.2 = v then (if v = d then l else (b, v) :: l)
    else (b, v) :: (e, d) :: l
  | StdMap.PrevOfBegin.header junk =>
    if v = d then l
    else if junk.2 = v then (b, v) :: l
    else if junk.1 = e then [(b, v)]
    else (b, v) :: (e, d) :: l

/-- The call uses `std::prev(m_map.begin())`: the store is non-empty and every
stored key lies beyond `keyEnd`, so `upper_bound(keyEnd)` and
`lower_bound(keyBegin)` are both `begin()`, line 91 tests the two decrements
and, unless it returns, line 96 reads through `prevEnd`. -/
def beforeFirst [LinearOrder K] (m : interval_map K V) (keyBegin keyEnd : K) : Prop :=
  keyBegin < keyEnd ∧ m.m_map ≠ [] ∧ ∀ p ∈ m.m_map, keyEnd < p.1

instance decBeforeFirst [LinearOrder K] [DecidableEq V] (m : interval_map K V) (b e : K) :
    Decidable (beforeFirst m b e) := by
  unfold beforeFirst; infer_instance

/-- The call takes the empty-store path (lines 77-81) with the default value. -/
def seedsDefault [LinearOrder K] (m : interval_map K V) (keyBegin keyEnd : K) (val : V) :
    Prop :=
  keyBegin < keyEnd ∧ m.m_map = [] ∧ val = m.m_valBegin

instance decSeedsDefault [LinearOrder K] [DecidableEq V] (m : interval_map K V) (b e : K)
    (v : V) : Decidable (seedsDefault m b e v) := by
  unfold seedsDefault; infer_instance

/-- A sequence of calls none of which seeds an empty store with the default
value or uses `std::prev(m_map.begin())`. -/
def admissible [LinearOrder K] [DecidableEq V] (m : interval_map K V) :
    List (StdMap.PrevOfBegin K V × K × K × V) → Bool
  | [] => true
  | c :: cs =>
    !decide (seedsDefault m c.2.1 c.2.2.1 c.2.2.2) &&
      !decide (beforeFirst m c.2.1 c.2.2.1) &&
      (match m.assign c.1 c.2.1 c.2.2.1 c.2.2.2 with
       | some m2 => admissible m2 cs
       | none => true)

/-- A sequence of calls none of which uses `std::prev(m_map.begin())`. -/
def defined [LinearOrder K] [DecidableEq V] (m : interval_map K V) :
    List (StdMap.PrevOfBegin K V × K × K × V) → Bool
  | [] => true
  | c :: cs =>
    !decide (beforeFirst m c.2.1 c.2.2.1) &&
      (match m.assign c.1 c.2.1 c.2.2.1 c.2.2.2 with
       | some m2 => defined m2 cs
       | none => true)

/-- Dense reference model, one call: overwrite every key of `[b, e)` with
`v`; a call with `¬ b < e` changes nothing. -/
def refAssign [LinearOrder K] (f : K → V) (b e : K) (v : V) : K → V :=
  fun k => if b < e ∧ ¬ k < b ∧ k < e then v else f k

/-- Dense reference model of a call sequence, starting from the constant
function `d`. -/
def reference [LinearOrder K] (d : V) (calls : List (K × K × V)) : K → V :=
  calls.foldl (fun f c => refAssign f c.1 c.2.1 c.2.2) (fun _ => d)

end interval_map

/-! ## Sorted stores: splitting at a key -/

namespace StdMap
variable {K V : Type} [LinearOrder K]

theorem sorted_append {X Y : List (K × V)} :
    Sorted (X ++ Y) ↔ Sorted X ∧ Sorted Y ∧ ∀ x ∈ X, ∀ y ∈ Y, x.1 < y.1 := by
  unfold Sorted
  exact List.pairwise_append

theorem sorted_cons {x : K × V} {Y : List (K × V)} :
    Sorted (x :: Y) ↔ (∀ y ∈ Y, x.1 < y.1) ∧ Sorted Y := by
  unfold Sorted
  exact List.pairwise_cons

theorem exists_split_lt {l : List (K × V)} (hs : Sorted l) (x : K) :
    ∃ X Y, l = X ++ Y ∧ (∀ p ∈ X, p.1 < x) ∧ (∀ p ∈ Y, ¬ p.1 < x) := by
  induction l with
  | nil => exact ⟨[], [], rfl, by simp, by simp⟩
  | cons a t ih =>
    rw [sorted_cons] at hs
    by_cases ha : a.1 < x
    · obtain ⟨X, Y, h1, h2, h3⟩ := ih hs.2
      refine ⟨a :: X, Y, by simp [h1], ?_, h3⟩
      intro p hp
      rcases List.mem_cons.1 hp with h | h
      · exact h ▸ ha
      · exact h2 p h
    · refine ⟨[], a :: t, rfl, by simp, ?_⟩
      intro p hp
      rcases List.mem_cons.1 hp with h | h
      · exact h ▸ ha
      · exact fun hlt => ha (lt_trans (hs.1 p h) hlt)

theorem exists_split_le {l : List (K × V)} (hs : Sorted l) (x : K) :
    ∃ X Y, l = X ++ Y ∧ (∀ p ∈ X, ¬ x < p.1) ∧ (∀ p ∈ Y, x < p.1) := by
  induction l with
  | nil => exact ⟨[], [], rfl, by simp, by simp⟩
  | cons a t ih =>
    rw [sorted_cons] at hs
    by_cases ha : x < a.1
    · refine ⟨[], a :: t, rfl, by simp, ?_⟩
      intro p hp
      rcases List.mem_cons.1 hp with h | h
      · exact h ▸ ha
      · exact lt_trans ha (hs.1 p h)
    · obtain ⟨X, Y, h1, h2, h3⟩ := ih hs.2
      refine ⟨a :: X, Y, by simp [h1], ?_, h3⟩
      intro p hp
      rcases List.mem_cons.1 hp with h | h
      · exact h ▸ ha
      · exact h2 p h

theorem filter_lt_split {X Y : List (K × V)} {k : K}
    (hX : ∀ p ∈ X, p.1 < k) (hY : ∀ p ∈ Y, ¬ p.1 < k) :
    (X ++ Y).filter (fun p => p.1 < k) = X := by
  have h1 : X.filter (fun p => p.1 < k) = X :=
    List.filter_eq_self.2 (fun p hp => by simpa using hX p hp)
  have h2 : Y.filter (fun p => p.1 < k) = [] :=
    List.filter_eq_nil_iff.2 (fun p hp => by simpa using hY p hp)
  rw [List.filter_append, h1, h2, List.append_nil]

theorem filter_gt_split {X Y : List (K × V)} {k : K}
    (hX : ∀ p ∈ X, ¬ k < p.1) (hY : ∀ p ∈ Y, k < p.1) :
    (X ++ Y).filter (fun p => k < p.1) = Y := by
  have h1 : X.filter (fun p => k < p.1) = [] :=
    List.filter_eq_nil_iff.2 (fun p hp => by simpa using hX p hp)
  have h2 : Y.filter (fun p => k < p.1) = Y :=
    List.filter_eq_self.2 (fun p hp => by simpa using hY p hp)
  rw [List.filter_append, h1, h2, List.nil_append]

theorem find_ge_split {X Y : List (K × V)} {k : K}
    (hX : ∀ p ∈ X, p.1 < k) (hY : ∀ p ∈ Y, ¬ p.1 < k) :
    (X ++ Y).find? (fun p => ¬ p.1 < k) = Y.head? := by
  induction X with
  | nil =>
    cases Y with
    | nil => rfl
    | cons y Y2 => simp [List.find?, hY y (List.mem_cons_self _ _)]
  | cons a t ih =>
    have ha := hX a (List.mem_cons_self _ _)
    simp only [List.cons_append, List.find?, ha, not_true_eq_false, decide_False]
    exact ih (fun p hp => hX p (List.mem_cons_of_mem _ hp))

theorem find_gt_split {X Y : List (K × V)} {k : K}
    (hX : ∀ p ∈ X, ¬ k < p.1) (hY : ∀ p ∈ Y, k < p.1) :
    (X ++ Y).find? (fun p => k < p.1) = Y.head? := by
  induction X with
  | nil =>
    cases Y with
    | nil => rfl
    | cons y Y2 => simp [List.find?, hY y (List.mem_cons_self _ _)]
  | cons a t ih =>
    have ha := hX a (List.mem_cons_self _ _)
    simp only [List.cons_append, List.find?, ha, decide_False]
    exact ih (fun p hp => hX p (List.mem_cons_of_mem _ hp))

theorem lower_bound_split {X Y : List (K × V)} {k : K}
    (hX : ∀ p ∈ X, p.1 < k) (hY : ∀ p ∈ Y, ¬ p.1 < k) :
    lower_bound (X ++ Y) k = begin Y := by
  unfold lower_bound begin
  rw [find_ge_split hX hY]

theorem upper_bound_split {X Y : List (K × V)} {k : K}
    (hX : ∀ p ∈ X, ¬ k < p.1) (hY : ∀ p ∈ Y, k < p.1) :
    upper_bound (X ++ Y) k = begin Y := by
  unfold upper_bound begin
  rw [find_gt_split hX hY]

theorem prev_begin_split {X Y : List (K × V)} (hs : Sorted (X ++ Y)) :
    prev (X ++ Y) (begin Y) = X.getLast?.map (fun p => some p.1) := by
  rw [sorted_append] at hs
  cases Y with
  | nil => simp [begin, prev]
  | cons y Y2 =>
    have h : (X ++ y :: Y2).filter (fun p => p.1 < y.1) = X := by
      apply filter_lt_split (fun p hp => hs.2.2 p hp y (List.mem_cons_self _ _))
      intro p hp
      rcases List.mem_cons.1 hp with h | h
      · rw [h]; exact lt_irrefl _
      · exact not_lt.2 (le_of_lt ((sorted_cons.1 hs.2.1).1 p h))
    simp only [begin, List.head?_cons, Option.map_some', prev, h]

/-- Where a boundary precedes the position, the executed decrement is the
language-level one, whatever the implementation yields at `begin()`. -/
theorem prevOn_begin_split (u : PrevOfBegin K V) {X Y : List (K × V)} {p : K × V}
    (hs : Sorted (X ++ Y)) (hp : X.getLast? = some p) :
    prevOn u (X ++ Y) (begin Y) = some p.1 := by
  unfold prevOn
  rw [prev_begin_split hs, hp]
  rfl

/-- At `begin()` the executed decrement is the outcome of the implementation. -/
theorem prevOn_begin (u : PrevOfBegin K V) {Y : List (K × V)} (hs : Sorted Y) :
    prevOn u Y (begin Y) =
      match u with
      | PrevOfBegin.first => begin Y
      | PrevOfBegin.header _ => end_ := by
  have h := prev_begin_split (X := []) (Y := Y) (by simpa using hs)
  simp only [List.nil_append, List.getLast?_nil, Option.map_none'] at h
  unfold prevOn
  rw [h]

end StdMap

/-! ## Iterators, insertion and erasure on a split store -/

namespace StdMap
variable {K V : Type}

theorem begin_cons (y : K × V) (Y : List (K × V)) : begin (y :: Y) = some y.1 := rfl

theorem begin_nil : begin ([] : List (K × V)) = none := rfl

theorem begin_append_of_ne_nil {X : List (K × V)} (Y : List (K × V)) (h : X ≠ []) :
    begin (X ++ Y) = begin X := by
  cases X with
  | nil => exact absurd rfl h
  | cons x X2 => rfl

variable [LinearOrder K]

theorem deref_last {X Y : List (K × V)} {p : K × V} (hs : Sorted (X ++ Y))
    (hp : X.getLast? = some p) : deref (X ++ Y) (some p.1) = some p := by
  obtain ⟨X0, rfl⟩ := List.getLast?_eq_some_iff.1 hp
  rw [sorted_append] at hs
  have h0 : ∀ q ∈ X0, q.1 < p.1 := fun q hq =>
    (sorted_append.1 hs.1).2.2 q hq p (List.mem_singleton_self _)
  unfold deref
  simp only [List.append_assoc, List.singleton_append]
  have key : ∀ (Z : List (K × V)), (∀ q ∈ Z, q.1 < p.1) →
      (Z ++ p :: Y).find? (fun q => ¬ q.1 < p.1 ∧ ¬ p.1 < q.1) = some p := by
    intro Z
    induction Z with
    | nil => intro _; simp [List.find?]
    | cons a t ih =>
      intro hZ
      have ha := hZ a (List.mem_cons_self _ _)
      simp only [List.cons_append, List.find?, ha, not_true_eq_false, false_and, decide_False]
      exact ih (fun q hq => hZ q (List.mem_cons_of_mem _ hq))
  exact key X0 h0

theorem derefOn_last (u : PrevOfBegin K V) {X Y : List (K × V)} {p : K × V}
    (hs : Sorted (X ++ Y)) (hp : X.getLast? = some p) :
    derefOn u (X ++ Y) (some p.1) = some p :=
  deref_last hs hp

theorem next_last {X Y : List (K × V)} {p : K × V} (hs : Sorted (X ++ Y))
    (hp : X.getLast? = some p) : next (X ++ Y) (some p.1) = some (begin Y) := by
  obtain ⟨X0, rfl⟩ := List.getLast?_eq_some_iff.1 hp
  rw [sorted_append] at hs
  show some (((X0 ++ [p] ++ Y).find? (fun q => p.1 < q.1)).map Prod.fst) = some (begin Y)
  unfold begin
  rw [find_gt_split]
  · intro q hq
    rcases List.mem_append.1 hq with h | h
    · exact not_lt.2 (le_of_lt ((sorted_append.1 hs.1).2.2 q h p (List.mem_singleton_self _)))
    · rw [List.mem_singleton.1 h]; exact lt_irrefl _
  · intro q hq
    exact hs.2.2 p (by simp) q hq

theorem insert_or_assign_split {X E Y : List (K × V)} {k : K} (v : V)
    (hX : ∀ p ∈ X, p.1 < k) (hE : ∀ p ∈ E, p.1 = k) (hY : ∀ p ∈ Y, k < p.1) :
    insert_or_assign (X ++ (E ++ Y)) k v = X ++ (k, v) :: Y := by
  unfold insert_or_assign
  rw [filter_lt_split hX, ← List.append_assoc, filter_gt_split _ hY]
  · intro p hp
    rcases List.mem_append.1 hp with h | h
    · exact not_lt.2 (le_of_lt (hX p h))
    · rw [hE p h]; exact lt_irrefl _
  · intro p hp
    rcases List.mem_append.1 hp with h | h
    · rw [hE p h]; exact lt_irrefl _
    · exact not_lt.2 (le_of_lt (hY p h))

theorem erase_middle {X Y Z : List (K × V)} (hs : Sorted (X ++ (Y ++ Z)))
    (hne : begin (Y ++ Z) ≠ none) :
    erase (X ++ (Y ++ Z)) (begin (Y ++ Z)) (begin Z) = some (X ++ Z) := by
  rw [sorted_append] at hs
  obtain ⟨hX, hYZ, hXYZ⟩ := hs
  rw [sorted_append] at hYZ
  obtain ⟨hY, hZ, hYZ2⟩ := hYZ
  cases Y with
  | nil =>
    cases Z with
    | nil => exact absurd rfl hne
    | cons z Z2 =>
      simp only [List.nil_append, begin_cons, erase, lt_irrefl, if_false]
      congr 1
      apply List.filter_eq_self.2
      intro p _
      by_cases h : p.1 < z.1 <;> simp [h]
  | cons y Y2 =>
    have hXy : ∀ p ∈ X, p.1 < y.1 := fun p hp => hXYZ p hp y (by simp)
    have hYy : ∀ p ∈ y :: Y2, ¬ p.1 < y.1 := by
      intro p hp
      rcases List.mem_cons.1 hp with h | h
      · rw [h]; exact lt_irrefl _
      · exact not_lt.2 (le_of_lt ((sorted_cons.1 hY).1 p h))
    cases Z with
    | nil =>
      simp only [List.append_nil, begin_cons, begin_nil, erase]
      rw [filter_lt_split hXy hYy]
    | cons z Z2 =>
      have hyz : y.1 < z.1 := hYZ2 y (by simp) z (by simp)
      have hZz : ∀ p ∈ z :: Z2, ¬ p.1 < z.1 := by
        intro p hp
        rcases List.mem_cons.1 hp with h | h
        · rw [h]; exact lt_irrefl _
        · exact not_lt.2 (le_of_lt ((sorted_cons.1 hZ).1 p h))
      simp only [List.cons_append, begin_cons, erase, not_lt.2 (le_of_lt hyz), if_false]
      congr 1
      have e1 : X.filter (fun p => decide (p.1 < y.1 ∨ ¬ p.1 < z.1)) = X :=
        List.filter_eq_self.2 (fun p hp => by simp [hXy p hp])
      have e2 : (y :: Y2).filter (fun p => decide (p.1 < y.1 ∨ ¬ p.1 < z.1)) = [] :=
        List.filter_eq_nil_iff.2 (fun p hp => by
          have h1 := hYy p hp
          have h2 : p.1 < z.1 := hYZ2 p hp z (by simp)
          simp [h1, h2])
      have e3 : (z :: Z2).filter (fun p => decide (p.1 < y.1 ∨ ¬ p.1 < z.1)) = z :: Z2 :=
        List.filter_eq_self.2 (fun p hp => by simp [hZz p hp])
      have : X ++ y :: (Y2 ++ z :: Z2) = X ++ ((y :: Y2) ++ (z :: Z2)) := by simp
      rw [this, List.filter_append, List.filter_append, e1, e2, e3, List.nil_append]

end StdMap

/-! ## Closing the right edge -/

namespace interval_map
open StdMap
variable {K V : Type}

theorem lastVal_nil (d : V) : lastVal d ([] : List (K × V)) = d := rfl

theorem lastVal_of_getLast {d : V} {X : List (K × V)} {p : K × V}
    (h : X.getLast? = some p) : lastVal d X = p.2 := by
  unfold lastVal; rw [h]

variable [LinearOrder K] [DecidableEq V]

/-- Right edge on a store split at `keyEnd`: `P` holds the keys up to `keyEnd`,
`C` the keys beyond it, `pe` is the last boundary of `P`. -/
theorem rightEdge_split (u : PrevOfBegin K V) (d v : V) {e : K} {P C : List (K × V)}
    {pe : K × V} (hs : Sorted (P ++ C)) (hP : ∀ p ∈ P, ¬ e < p.1) (hC : ∀ p ∈ C, e < p.1)
    (hpe : P.getLast? = some pe) :
    rightEdge u (P ++ C) d e v (begin C) (some pe.1) =
      some ((if pe.2 = v then P else P.filter (fun p => p.1 < e)) ++
              ((if pe.2 = v then [] else [(e, pe.2)]) ++ C),
            begin ((if pe.2 = v then [] else [(e, pe.2)]) ++ C)) := by
  unfold rightEdge
  rw [derefOn_last u hs hpe]
  simp only [Option.some_bind]
  by_cases hv : pe.2 = v
  · simp [hv]
  · simp only [hv, not_false_eq_true, if_true, if_false]
    obtain ⟨P0, rfl⟩ := List.getLast?_eq_some_iff.1 hpe
    have hP0 : ∀ q ∈ P0, q.1 < pe.1 := fun q hq =>
      (sorted_append.1 (sorted_append.1 hs).1).2.2 q hq pe (List.mem_singleton_self _)
    have hpe_le : ¬ e < pe.1 := hP pe (by simp)
    by_cases hk : pe.1 < e
    · have hf : (P0 ++ [pe]).filter (fun p => p.1 < e) = P0 ++ [pe] :=
        List.filter_eq_self.2 (fun q hq => by
          rcases List.mem_append.1 hq with h | h
          · simpa using lt_trans (hP0 q h) hk
          · rw [List.mem_singleton.1 h]; simpa using hk)
      have hb : begin C ≠ begin (P0 ++ [pe] ++ C) := by
        intro h
        have h2 : begin (P0 ++ [pe] ++ C) = begin (P0 ++ [pe]) := by
          rw [begin_append_of_ne_nil]; simp
        rw [h2] at h
        cases C with
        | nil =>
          cases P0 <;> simp [begin] at h
        | cons c C2 =>
          have hc := hC c (by simp)
          cases P0 with
          | nil =>
            simp only [begin_cons, List.nil_append, Option.some.injEq] at h
            rw [h] at hc; exact hpe_le hc
          | cons a t =>
            simp only [begin_cons, List.cons_append, Option.some.injEq] at h
            have := hP a (by simp)
            rw [← h] at this; exact this hc
      have hioa : insert_or_assign (P0 ++ [pe] ++ C) e pe.2 = P0 ++ [pe] ++ (e, pe.2) :: C := by
        have := insert_or_assign_split (X := P0 ++ [pe]) (E := []) (Y := C) pe.2
          (fun q hq => by
            have := List.filter_eq_self.1 hf q hq
            simpa using this) (by simp) hC
        simpa using this
      simp only [hk, not_true_eq_false, false_and, if_false, hb, hf, hioa]
      simp [begin]
    · have hke : pe.1 = e := le_antisymm (not_lt.1 hpe_le) (not_lt.1 hk)
      have hf : (P0 ++ [pe]).filter (fun p => p.1 < e) = P0 :=
        filter_lt_split (fun q hq => hke ▸ hP0 q hq)
          (fun q hq => by rw [List.mem_singleton.1 hq]; exact hk)
      have hpe2 : (e, pe.2) = pe := by rw [← hke]
      simp only [hk, hpe_le, not_false_eq_true, and_self, if_true, hf, hpe2]
      simp [begin, hke]

end interval_map

/-! ## Closing the left edge -/

namespace interval_map
open StdMap
variable {K V : Type} [LinearOrder K] [DecidableEq V]

/-- Left edge on a store split at `keyBegin`: `A` holds the keys below
`keyBegin`, `G` the keys from `keyBegin` on. -/
theorem leftEdge_split (u : PrevOfBegin K V) (d v : V) (ptrBegin prevBegin : Option K)
    {b : K} {A G : List (K × V)}
    (hs : Sorted (A ++ G)) (hA : ∀ p ∈ A, p.1 < b) (hG : ∀ p ∈ G, ¬ p.1 < b)
    (hpb1 : A = [] → ptrBegin = begin G) (hpb2 : ∀ k, ptrBegin = some k → ¬ k < b)
    (hpv : ∀ pa, A.getLast? = some pa → prevBegin = some pa.1) :
    leftEdge u (A ++ G) d b v ptrBegin prevBegin =
      some (A ++ ((if lastVal d A = v then [] else [(b, v)]) ++
                   (if lastVal d A = v then G else G.filter (fun p => b < p.1))),
            begin (if lastVal d A = v then G else G.filter (fun p => b < p.1))) := by
  have hsA := (sorted_append.1 hs).1
  have hsG := (sorted_append.1 hs).2.1
  have hAb : A.filter (fun p => b < p.1) = [] :=
    List.filter_eq_nil_iff.2 (fun p hp => by simpa using le_of_lt (hA p hp))
  have hioa : insert_or_assign (A ++ G) b v = A ++ (b, v) :: G.filter (fun p => b < p.1) := by
    unfold insert_or_assign
    rw [filter_lt_split hA hG, List.filter_append, hAb, List.nil_append]
  have hsort2 : Sorted ((A ++ [(b, v)]) ++ G.filter (fun p => b < p.1)) := by
    rw [sorted_append, sorted_append]
    refine ⟨⟨hsA, by simp [Sorted], ?_⟩, List.Pairwise.filter _ hsG, ?_⟩
    · intro x hx y hy
      rw [List.mem_singleton.1 hy]; exact hA x hx
    · intro x hx y hy
      have hy2 : b < y.1 := by simpa using (List.mem_filter.1 hy).2
      rcases List.mem_append.1 hx with h | h
      · exact lt_trans (hA x h) hy2
      · rw [List.mem_singleton.1 h]; exact hy2
  have hnext : next (A ++ (b, v) :: G.filter (fun p => b < p.1)) (some b) =
      some (begin (G.filter (fun p => b < p.1))) := by
    have := next_last (X := A ++ [(b, v)]) (Y := G.filter (fun p => b < p.1))
      (p := (b, v)) hsort2 (by simp)
    simpa using this
  unfold leftEdge
  cases hA0 : A.getLast? with
  | none =>
    have hnil : A = [] := List.getLast?_eq_none_iff.1 hA0
    subst hnil
    have hd : lastVal d ([] : List (K × V)) = d := rfl
    simp only [List.nil_append, hpb1 rfl, ne_eq, not_true_eq_false, if_false, hd]
    by_cases hv : v = d
    · subst hv; simp
    · have hv2 : ¬ d = v := fun h => hv h.symm
      simp only [hv, not_false_eq_true, if_true, hv2, if_false]
      simp only [List.nil_append] at hioa hnext
      rw [hioa, hnext]
      simp
  | some pa =>
    have hne : A ≠ [] := by
      intro h; rw [h] at hA0; simp at hA0
    have hbeg : ptrBegin ≠ begin (A ++ G) := by
      rw [begin_append_of_ne_nil G hne]
      cases A with
      | nil => exact absurd rfl hne
      | cons a t =>
        intro h
        exact hpb2 a.1 h (hA a (by simp))
    simp only [hbeg, ne_eq, not_false_eq_true, if_true, hpv pa hA0, derefOn_last u hs hA0,
      Option.some_bind, lastVal_of_getLast hA0]
    by_cases hv : pa.2 = v
    · simp only [hv, not_true_eq_false, if_false, if_true, next_last hs hA0]
      simp
    · simp only [hv, not_false_eq_true, if_true, if_false, hioa, hnext]
      simp

end interval_map

/-! ## Sortedness of assembled stores and the closing erase -/

namespace StdMap
variable {K V : Type} [LinearOrder K]

theorem sorted_of_lt_ge {X Y : List (K × V)} (k : K) (hX : Sorted X) (hY : Sorted Y)
    (h1 : ∀ p ∈ X, p.1 < k) (h2 : ∀ p ∈ Y, ¬ p.1 < k) : Sorted (X ++ Y) :=
  sorted_append.2 ⟨hX, hY, fun x hx y hy => lt_of_lt_of_le (h1 x hx) (not_lt.1 (h2 y hy))⟩

theorem sorted_of_le_gt {X Y : List (K × V)} (k : K) (hX : Sorted X) (hY : Sorted Y)
    (h1 : ∀ p ∈ X, ¬ k < p.1) (h2 : ∀ p ∈ Y, k < p.1) : Sorted (X ++ Y) :=
  sorted_append.2 ⟨hX, hY, fun x hx y hy => lt_of_le_of_lt (not_lt.1 (h1 x hx)) (h2 y hy)⟩

theorem sorted_singleton (p : K × V) : Sorted [p] := by simp [Sorted]

theorem sorted_nil : Sorted ([] : List (K × V)) := by simp [Sorted]

theorem sorted_filter {X : List (K × V)} (f : K × V → Bool) (h : Sorted X) :
    Sorted (X.filter f) := List.Pairwise.filter _ h

/-- The closing step of `assign`: erase from the left marker up to the right
marker when the left marker is not `end()`. -/
theorem erase_tail {X Y Z : List (K × V)} {α : Type} (f : List (K × V) → α)
    (hs : Sorted (X ++ (Y ++ Z))) :
    (if begin (Y ++ Z) ≠ end_ then
        (erase (X ++ (Y ++ Z)) (begin (Y ++ Z)) (begin Z)).map f
      else some (f (X ++ (Y ++ Z)))) = some (f (X ++ Z)) := by
  by_cases h : begin (Y ++ Z) = none
  · have hnil : Y ++ Z = [] := by
      cases hYZ : Y ++ Z with
      | nil => rfl
      | cons a t => rw [hYZ] at h; simp [begin] at h
    obtain ⟨hY, hZ⟩ := List.append_eq_nil.1 hnil
    subst hY hZ
    simp [end_, begin]
  · rw [if_pos (by simpa [end_] using h), erase_middle hs h]
    rfl

end StdMap

/-! ## The general path of `assign` -/

namespace interval_map
open StdMap
variable {K V : Type} [LinearOrder K] [DecidableEq V]

/-- The general path of `assign` on a store split around `[b, e]`: `A` holds
the keys below `b`, `M` the keys in `[b, e]`, `C` the keys above `e`, and some
stored key is not above `e`. -/
theorem assign_split (u : PrevOfBegin K V) (d v : V) {b e : K} {A M C : List (K × V)} (hbe : b < e)
    (hs : Sorted (A ++ (M ++ C))) (hA : ∀ p ∈ A, p.1 < b)
    (hM : ∀ p ∈ M, ¬ p.1 < b ∧ ¬ e < p.1) (hC : ∀ p ∈ C, e < p.1)
    (hne : A ++ M ≠ []) :
    assign u { m_valBegin := d, m_map := A ++ (M ++ C) } b e v =
      some { m_valBegin := d,
             m_map := A ++ ((if lastVal d A = v then [] else [(b, v)]) ++
               ((if lastVal d (A ++ M) = v then [] else [(e, lastVal d (A ++ M))]) ++ C)) } := by
  obtain ⟨hsA, hsMC, hAMC⟩ := sorted_append.1 hs
  obtain ⟨hsM, hsC, hMC⟩ := sorted_append.1 hsMC
  have hG : ∀ p ∈ M ++ C, ¬ p.1 < b := by
    intro p hp
    rcases List.mem_append.1 hp with h | h
    · exact (hM p h).1
    · exact not_lt.2 (le_of_lt (lt_trans hbe (hC p h)))
  have hP : ∀ p ∈ A ++ M, ¬ e < p.1 := by
    intro p hp
    rcases List.mem_append.1 hp with h | h
    · exact not_lt.2 (le_of_lt (lt_trans (hA p h) hbe))
    · exact (hM p h).2
  have hs2 : Sorted ((A ++ M) ++ C) := by rw [List.append_assoc]; exact hs
  obtain ⟨pe, hpe⟩ : ∃ pe, (A ++ M).getLast? = some pe := by
    cases h : (A ++ M).getLast? with
    | none => exact absurd (List.getLast?_eq_none_iff.1 h) hne
    | some pe => exact ⟨pe, rfl⟩
  have hlne : (A ++ (M ++ C)).length ≠ 0 := by
    intro h
    have := List.length_eq_zero.1 h
    rw [← List.append_assoc] at this
    exact hne (List.append_eq_nil.1 this).1
  have hptrB : lower_bound (A ++ (M ++ C)) b = begin (M ++ C) := lower_bound_split hA hG
  have hptrE : upper_bound (A ++ (M ++ C)) e = begin C := by
    rw [← List.append_assoc]; exact upper_bound_split hP hC
  have hpv : ∀ pa, A.getLast? = some pa →
      prevOn u (A ++ (M ++ C)) (begin (M ++ C)) = some pa.1 :=
    fun pa h => prevOn_begin_split u hs h
  have hprevE : prevOn u (A ++ (M ++ C)) (begin C) = some pe.1 := by
    rw [← List.append_assoc]; exact prevOn_begin_split u hs2 hpe
  have hrv : lastVal d (A ++ M) = pe.2 := lastVal_of_getLast hpe
  have hre := rightEdge_split u d v hs2 hP hC hpe
  rw [List.append_assoc] at hre
  unfold assign
  simp only [hbe, not_true_eq_false, if_false, hlne, hptrB, hptrE, hprevE, hrv]
  generalize prevOn u (A ++ (M ++ C)) (begin (M ++ C)) = prevBegin at hpv ⊢
  rw [if_neg (by rintro ⟨_, h1, h2⟩; rw [h2] at h1; simp [end_] at h1)]
  rw [hre]
  simp only [Option.some_bind]
  -- the region [b, e) of the store after the right edge
  have hMf : (A ++ M).filter (fun p => p.1 < e) = A ++ M.filter (fun p => p.1 < e) := by
    rw [List.filter_append, List.filter_eq_self.2]
    intro p hp; simpa using lt_trans (hA p hp) hbe
  by_cases hv : pe.2 = v
  · simp only [hv, if_true, List.nil_append, List.append_assoc]
    have hle := leftEdge_split u d v (begin (M ++ C)) prevBegin hs hA hG (fun _ => rfl)
      (fun k hk => by
        cases hMC2 : M ++ C with
        | nil => rw [hMC2] at hk; simp [begin] at hk
        | cons g G2 =>
          rw [hMC2, begin_cons] at hk
          have := hG g (by rw [hMC2]; simp)
          rwa [Option.some.inj hk] at this) hpv
    rw [hle]
    simp only [Option.some_bind]
    by_cases hl : lastVal d A = v
    · simp only [hl, if_true, List.nil_append]
      exact erase_tail (fun s => ({ m_valBegin := d, m_map := s } : interval_map K V)) hs
    · simp only [hl, if_false, List.singleton_append]
      have hfC : C.filter (fun p => b < p.1) = C :=
        List.filter_eq_self.2 (fun p hp => by simpa using lt_trans hbe (hC p hp))
      rw [List.filter_append, hfC]
      have hs3 : Sorted ((A ++ [(b, v)]) ++ (M.filter (fun p => b < p.1) ++ C)) := by
        rw [List.append_assoc]
        refine sorted_of_lt_ge b hsA ?_ hA ?_
        · refine sorted_of_le_gt (X := [(b, v)]) b (sorted_singleton _) ?_ (by simp) ?_
          · exact sorted_of_le_gt e (sorted_filter _ hsM) hsC
              (fun p hp => (hM p (List.mem_filter.1 hp).1).2) hC
          · intro p hp
            rcases List.mem_append.1 hp with h | h
            · simpa using (List.mem_filter.1 h).2
            · exact lt_trans hbe (hC p h)
        · intro p hp
          rcases List.mem_append.1 hp with h | h
          · rw [List.mem_singleton.1 h]; exact lt_irrefl _
          · rcases List.mem_append.1 h with h | h
            · exact (hM p (List.mem_filter.1 h).1).1
            · exact not_lt.2 (le_of_lt (lt_trans hbe (hC p h)))
      have := erase_tail (fun s => ({ m_valBegin := d, m_map := s } : interval_map K V)) hs3
      simpa using this
  · simp only [hv, if_false, hMf, List.append_assoc, List.singleton_append]
    have hZ : ∀ p ∈ (e, pe.2) :: C, ¬ p.1 < e := by
      intro p hp
      rcases List.mem_cons.1 hp with h | h
      · rw [h]; exact lt_irrefl _
      · exact not_lt.2 (le_of_lt (hC p h))
    have hZb : ∀ p ∈ (e, pe.2) :: C, b < p.1 := fun p hp =>
      lt_of_lt_of_le hbe (not_lt.1 (hZ p hp))
    have hsZ : Sorted ((e, pe.2) :: C) := sorted_cons.2 ⟨hC, hsC⟩
    have hMfe : ∀ p ∈ M.filter (fun p => p.1 < e), p.1 < e := fun p hp => by
      simpa using (List.mem_filter.1 hp).2
    have hsG : Sorted (M.filter (fun p => p.1 < e) ++ (e, pe.2) :: C) :=
      sorted_of_lt_ge e (sorted_filter _ hsM) hsZ hMfe hZ
    have hG2 : ∀ p ∈ M.filter (fun p => p.1 < e) ++ (e, pe.2) :: C, ¬ p.1 < b := by
      intro p hp
      rcases List.mem_append.1 hp with h | h
      · exact (hM p (List.mem_filter.1 h).1).1
      · exact not_lt.2 (le_of_lt (hZb p h))
    have hs4 : Sorted (A ++ (M.filter (fun p => p.1 < e) ++ (e, pe.2) :: C)) :=
      sorted_of_lt_ge b hsA hsG hA hG2
    have hpb1 : A = [] →
        begin (M ++ C) = begin (M.filter (fun p => p.1 < e) ++ (e, pe.2) :: C) := by
      intro hA0
      subst hA0
      cases M with
      | nil => exact absurd rfl hne
      | cons m M2 =>
        by_cases hm : m.1 < e
        · simp [begin, List.filter_cons, hm]
        · have hme : m.1 = e := le_antisymm (not_lt.1 (hM m (by simp)).2) (not_lt.1 hm)
          have hf : (m :: M2).filter (fun p => p.1 < e) = [] :=
            List.filter_eq_nil_iff.2 (fun p hp => by
              rcases List.mem_cons.1 hp with h | h
              · rw [h]; simpa using hm
              · have := (sorted_cons.1 hsM).1 p h
                rw [hme] at this
                simpa using le_of_lt this)
          rw [hf]
          simp [begin, hme]
    have hpb2 : ∀ k, begin (M ++ C) = some k → ¬ k < b := by
      intro k hk
      cases hMC2 : M ++ C with
      | nil => rw [hMC2] at hk; simp [begin] at hk
      | cons g G2 =>
        rw [hMC2, begin_cons] at hk
        have := hG g (by rw [hMC2]; simp)
        rwa [Option.some.inj hk] at this
    rw [leftEdge_split u d v _ prevBegin hs4 hA hG2 hpb1 hpb2 hpv]
    simp only [Option.some_bind]
    by_cases hl : lastVal d A = v
    · simp only [hl, if_true, List.nil_append]
      exact erase_tail (fun s => ({ m_valBegin := d, m_map := s } : interval_map K V)) hs4
    · simp only [hl, if_false, List.singleton_append]
      have hfZ : ((e, pe.2) :: C).filter (fun p => b < p.1) = (e, pe.2) :: C :=
        List.filter_eq_self.2 (fun p hp => by simpa using hZb p hp)
      rw [List.filter_append, hfZ]
      have hs5 : Sorted ((A ++ [(b, v)]) ++
          ((M.filter (fun p => p.1 < e)).filter (fun p => b < p.1) ++ (e, pe.2) :: C)) := by
        rw [List.append_assoc]
        refine sorted_of_lt_ge b hsA ?_ hA ?_
        · refine sorted_of_le_gt (X := [(b, v)]) b (sorted_singleton _) ?_ (by simp) ?_
          · exact sorted_of_lt_ge e (sorted_filter _ (sorted_filter _ hsM)) hsZ
              (fun p hp => hMfe p (List.mem_filter.1 hp).1) hZ
          · intro p hp
            rcases List.mem_append.1 hp with h | h
            · simpa using (List.mem_filter.1 h).2
            · exact hZb p h
        · intro p hp
          rcases List.mem_append.1 hp with h | h
          · rw [List.mem_singleton.1 h]; exact lt_irrefl _
          · rcases List.mem_append.1 h with h | h
            · exact (hM p (List.mem_filter.1 (List.mem_filter.1 h).1).1).1
            · exact not_lt.2 (le_of_lt (hZb p h))
      have := erase_tail (fun s => ({ m_valBegin := d, m_map := s } : interval_map K V)) hs5
      simpa using this

end interval_map

/-! ## Lookup -/

namespace interval_map
open StdMap
variable {K V : Type} [LinearOrder K]

/-- Lookup on a store split at `k`: `P` holds the keys up to `k`, `C` the keys
beyond it. -/
theorem lookup_split (d : V) {k : K} {P C : List (K × V)} (hs : Sorted (P ++ C))
    (hP : ∀ p ∈ P, ¬ k < p.1) (hC : ∀ p ∈ C, k < p.1) :
    lookup { m_valBegin := d, m_map := P ++ C } k = some (lastVal d P) := by
  unfold lookup
  simp only [upper_bound_split hP hC, prev_begin_split hs]
  cases hpl : P.getLast? with
  | none =>
    have : P = [] := List.getLast?_eq_none_iff.1 hpl
    subst this
    simp [lastVal]
  | some pe =>
    have hne : P ≠ [] := by intro h; rw [h] at hpl; simp at hpl
    have hb : begin C ≠ begin (P ++ C) := by
      rw [begin_append_of_ne_nil C hne]
      cases P with
      | nil => exact absurd rfl hne
      | cons a t =>
        cases C with
        | nil => simp [begin]
        | cons c C2 =>
          simp only [begin_cons, ne_eq, Option.some.injEq]
          intro h
          have h1 := hP a (by simp)
          have h2 := hC c (by simp)
          rw [h] at h2
          exact h1 h2
    rw [if_neg hb]
    simp only [Option.map_some', Option.some_bind, deref_last hs hpl, lastVal_of_getLast hpl]

theorem lookup_total (m : interval_map K V) (hs : Sorted m.m_map) (k : K) :
    ∃ P C, m.m_map = P ++ C ∧ (∀ p ∈ P, ¬ k < p.1) ∧ (∀ p ∈ C, k < p.1) ∧
      m.lookup k = some (lastVal m.m_valBegin P) := by
  obtain ⟨P, C, h, hP, hC⟩ := exists_split_le hs k
  refine ⟨P, C, h, hP, hC, ?_⟩
  have := lookup_split m.m_valBegin (h ▸ hs) hP hC
  rw [← h] at this
  exact this

end interval_map

/-! ## Invalid interval, empty store, interval before the first boundary -/

namespace interval_map
open StdMap
variable {K V : Type} [LinearOrder K]

theorem exists_split3 {l : List (K × V)} (hs : Sorted l) (b e : K) :
    ∃ A M C, l = A ++ (M ++ C) ∧ (∀ p ∈ A, p.1 < b) ∧
      (∀ p ∈ M, ¬ p.1 < b ∧ ¬ e < p.1) ∧ (∀ p ∈ C, e < p.1) := by
  obtain ⟨P, C, h1, hP, hC⟩ := exists_split_le hs e
  have hsP : Sorted P := (sorted_append.1 (h1 ▸ hs)).1
  obtain ⟨A, M, h2, hA, hM⟩ := exists_split_lt hsP b
  refine ⟨A, M, C, by rw [h1, h2, List.append_assoc], hA, ?_, hC⟩
  intro p hp
  exact ⟨hM p hp, hP p (by rw [h2]; exact List.mem_append_right _ hp)⟩

theorem insert_or_assign_front {l : List (K × V)} {k : K} (v : V)
    (h : ∀ p ∈ l, k < p.1) : insert_or_assign l k v = (k, v) :: l := by
  have := insert_or_assign_split (X := []) (E := []) (Y := l) (k := k) v
    (by simp) (by simp) h
  simpa using this

theorem next_front {l : List (K × V)} {p : K × V} (hs : Sorted (p :: l)) :
    next (p :: l) (some p.1) = some (begin l) := by
  have := next_last (X := [p]) (Y := l) (p := p) (by simpa using hs) (by simp)
  simpa using this

theorem erase_self (l : List (K × V)) (k : K) : erase l (some k) (some k) = some l := by
  simp only [erase, lt_irrefl, if_false]
  congr 1
  apply List.filter_eq_self.2
  intro p _
  by_cases h : p.1 < k <;> simp [h]

theorem erase_to_end {x : K × V} {l : List (K × V)} {p0 : K × V} {t : List (K × V)}
    (hl : l = p0 :: t) (hs : Sorted (x :: l)) :
    erase (x :: l) (begin l) none = some [x] := by
  subst hl
  have h1 : ∀ p ∈ [x], p.1 < p0.1 := by
    intro p hp
    rw [List.mem_singleton.1 hp]
    exact (sorted_cons.1 hs).1 p0 (by simp)
  have h2 : ∀ p ∈ p0 :: t, ¬ p.1 < p0.1 := by
    intro p hp
    rcases List.mem_cons.1 hp with h | h
    · rw [h]; exact lt_irrefl _
    · exact not_lt.2 (le_of_lt ((sorted_cons.1 (sorted_cons.1 hs).2).1 p h))
  have := filter_lt_split h1 h2
  simp only [begin_cons, erase]
  rw [show x :: p0 :: t = [x] ++ (p0 :: t) from rfl, this]

variable [DecidableEq V]

theorem assign_invalid (u : PrevOfBegin K V) (m : interval_map K V) {b e : K} (v : V)
    (h : ¬ b < e) : m.assign u b e v = some m := by
  unfold assign
  rw [if_pos h]

theorem assign_seed (u : PrevOfBegin K V) (d v : V) {b e : K} (hbe : b < e) :
    assign u { m_valBegin := d, m_map := ([] : List (K × V)) } b e v =
      some { m_valBegin := d, m_map := [(b, v), (e, d)] } := by
  have h1 : ¬ e < b := not_lt.2 (le_of_lt hbe)
  simp [assign, hbe, StdMap.insert, insert_or_assign, h1]

/-- Every stored key lies beyond `e`: `prevBegin` and `prevEnd` are both the
outcome `u` of `std::prev(m_map.begin())`, and the call leaves the store
`beforeFirstStore`. -/
theorem assign_before_first (u : PrevOfBegin K V) (d v : V) {b e : K} {p0 : K × V}
    {t : List (K × V)} (hbe : b < e) (hs : Sorted (p0 :: t))
    (hC : ∀ p ∈ p0 :: t, e < p.1) :
    assign u { m_valBegin := d, m_map := p0 :: t } b e v =
      some { m_valBegin := d, m_map := beforeFirstStore u d p0 (p0 :: t) b e v } := by
  have hCb : ∀ p ∈ p0 :: t, b < p.1 := fun p hp => lt_trans hbe (hC p hp)
  have hlb : lower_bound (p0 :: t) b = some p0.1 := by
    have := lower_bound_split (X := []) (Y := p0 :: t) (k := b) (by simp)
      (fun p hp => not_lt.2 (le_of_lt (hCb p hp)))
    simpa using this
  have hub : upper_bound (p0 :: t) e = some p0.1 := by
    have := upper_bound_split (X := []) (Y := p0 :: t) (k := e) (by simp) hC
    simpa using this
  have hprev := prevOn_begin u hs
  rw [begin_cons] at hprev
  have he0 : e < p0.1 := hC p0 (by simp)
  have hb0 : b < p0.1 := hCb p0 (by simp)
  have hse : Sorted ((e, d) :: p0 :: t) := sorted_cons.2 ⟨hC, hs⟩
  have hsb : Sorted ((b, v) :: p0 :: t) := sorted_cons.2 ⟨hCb, hs⟩
  have hsbe : Sorted ((b, v) :: (e, d) :: p0 :: t) := by
    refine sorted_cons.2 ⟨?_, hse⟩
    intro p hp
    rcases List.mem_cons.1 hp with h | h
    · rw [h]; exact hbe
    · exact hCb p h
  have hd0 : ∀ w : PrevOfBegin K V, derefOn w (p0 :: t) (some p0.1) = some p0 := fun w =>
    derefOn_last w (X := [p0]) (Y := t) (by simpa using hs) (by simp)
  have hd1 : ∀ w : PrevOfBegin K V, derefOn w ((e, d) :: p0 :: t) (some p0.1) = some p0 :=
    fun w => derefOn_last w (X := [(e, d), p0]) (Y := t) (by simpa using hse) (by simp)
  have hie : insert_or_assign (p0 :: t) e d = (e, d) :: p0 :: t := insert_or_assign_front d hC
  have hib : insert_or_assign (p0 :: t) b v = (b, v) :: p0 :: t := insert_or_assign_front v hCb
  have hibe : insert_or_assign ((e, d) :: p0 :: t) b v = (b, v) :: (e, d) :: p0 :: t :=
    insert_or_assign_front v (by
      intro p hp
      rcases List.mem_cons.1 hp with h | h
      · rw [h]; exact hbe
      · exact hCb p h)
  have hnb : next ((b, v) :: p0 :: t) (some b) = some (some p0.1) := next_front hsb
  have hnbe : next ((b, v) :: (e, d) :: p0 :: t) (some b) = some (some e) := next_front hsbe
  have hne0 : (some p0.1 : Option K) ≠ some e := by
    intro h; exact absurd (Option.some.inj h ▸ he0) (lt_irrefl _)
  have hdh : ∀ (j : K × V) (s : List (K × V)),
      derefOn (PrevOfBegin.header j) s none = some j := fun _ _ => rfl
  have hsn : ∀ k : K, (some k : Option K) ≠ none := fun k h => by cases h
  unfold assign
  simp only [hbe, not_true_eq_false, if_false, List.length_cons, Nat.add_one_ne_zero, hlb, hub,
    hprev]
  cases u with
  | first =>
    simp only [beforeFirstStore]
    rw [if_neg (by rintro ⟨_, _, h⟩; exact hsn _ h)]
    unfold rightEdge
    rw [hd0]
    by_cases hv : p0.2 = v
    · by_cases hvd : v = d
      · simp only [hv, hvd, leftEdge, Option.some_bind, Option.map_some', begin_cons, ne_eq,
          not_true_eq_false, not_false_eq_true, if_true, if_false, end_, hsn, erase_self]
      · simp only [hv, hvd, leftEdge, Option.some_bind, Option.map_some', begin_cons, ne_eq,
          not_true_eq_false, not_false_eq_true, if_true, if_false, end_, hsn, erase_self,
          hib, hnb]
    · simp only [hv, leftEdge, Option.some_bind, Option.map_some', begin_cons, ne_eq,
        not_true_eq_false, not_false_eq_true, if_true, if_false, end_, hsn, erase_self,
        not_lt.2 (le_of_lt he0), he0, and_false, hie, hne0, hd1, hibe, hnbe]
  | header junk =>
    simp only [beforeFirstStore]
    by_cases hvd : v = d
    · simp [hvd, end_]
    · rw [if_neg (fun h => hvd h.1)]
      simp only [hvd, if_false]
      unfold rightEdge
      rw [show (end_ : Option K) = none from rfl, hdh]
      by_cases hj : junk.2 = v
      · simp only [hj, hvd, leftEdge, Option.some_bind, Option.map_some', begin_cons, ne_eq,
          not_true_eq_false, not_false_eq_true, if_true, if_false, end_, hsn, erase_self,
          hib, hnb]
      · by_cases hje : junk.1 = e
        · have hte := erase_to_end (x := (b, v)) (l := p0 :: t) rfl hsb
          rw [begin_cons] at hte
          simp only [hj, hje, hvd, leftEdge, Option.some_bind, Option.map_some', begin_cons,
            ne_eq, not_true_eq_false, not_false_eq_true, if_true, if_false, end_, hsn,
            lt_irrefl, and_self, hib, hnb, hte]
        · have hje2 : ¬ (¬ junk.1 < e ∧ ¬ e < junk.1) := fun h =>
            hje (le_antisymm (not_lt.1 h.2) (not_lt.1 h.1))
          simp only [hj, hje, hje2, hvd, leftEdge, Option.some_bind, Option.map_some',
            begin_cons, ne_eq, not_true_eq_false, not_false_eq_true, if_true, if_false, end_,
            hsn, erase_self, hie, hne0, hdh, hibe, hnbe]

end interval_map
/-! ## Canonical form of the store left by `assign` -/

namespace interval_map
open StdMap
variable {K V : Type}

theorem lastVal_cons (d : V) (p : K × V) (t : List (K × V)) :
    lastVal d (p :: t) = lastVal p.2 t := by
  unfold lastVal
  rw [List.getLast?_cons]
  cases t.getLast? <;> rfl

theorem lastVal_append (d : V) (X Y : List (K × V)) :
    lastVal d (X ++ Y) = lastVal (lastVal d X) Y := by
  induction X generalizing d with
  | nil => rfl
  | cons p t ih => rw [List.cons_append, lastVal_cons, lastVal_cons, ih]

theorem canonicalFrom_append (d : V) (X Y : List (K × V)) :
    canonicalFrom d (X ++ Y) ↔ canonicalFrom d X ∧ canonicalFrom (lastVal d X) Y := by
  induction X generalizing d with
  | nil => simp [canonicalFrom, lastVal]
  | cons p t ih =>
    rw [List.cons_append, lastVal_cons]
    simp only [canonicalFrom, ih, and_assoc]

theorem canonical_iff (d : V) (l : List (K × V)) :
    Canonical { m_valBegin := d, m_map := l } ↔ canonicalFrom d l := by
  induction l generalizing d with
  | nil => simp [Canonical, canonicalFrom]
  | cons p t ih =>
    have h := ih p.2
    simp only [Canonical] at h ⊢
    simp only [canonicalFrom, ← h, List.head?_cons, Option.some.injEq, forall_eq',
      List.chain'_cons']
    constructor
    · rintro ⟨h1, h2, h3⟩
      exact ⟨h1, fun q hq => (h2 q hq).symm, h3⟩
    · rintro ⟨h1, h2, h3⟩
      exact ⟨h1, fun q hq => (h2 q hq).symm, h3⟩

variable [DecidableEq V]

theorem lastVal_edges_mid (d v : V) (b e : K) (A M : List (K × V)) :
    lastVal d (A ++ ((if lastVal d A = v then [] else [(b, v)]) ++
      (if lastVal d (A ++ M) = v then [] else [(e, lastVal d (A ++ M))]))) =
      lastVal d (A ++ M) := by
  rw [lastVal_append d A, lastVal_append (lastVal d A)]
  have hl : lastVal (lastVal d A) (if lastVal d A = v then [] else [(b, v)]) = v := by
    split
    · rename_i h; exact h
    · rfl
  rw [hl]
  split
  · rename_i h; exact h.symm
  · rfl

theorem edges_canonical (d v : V) (b e : K) {A M C : List (K × V)}
    (hc : canonicalFrom d (A ++ (M ++ C))) : canonicalFrom d (edges d A M C b e v) := by
  rw [canonicalFrom_append, canonicalFrom_append, ← lastVal_append] at hc
  obtain ⟨hcA, -, hcC⟩ := hc
  unfold edges
  rw [canonicalFrom_append, canonicalFrom_append]
  refine ⟨hcA, ?_, ?_⟩
  · split
    · trivial
    · rename_i h
      exact ⟨fun h2 => h h2.symm, trivial⟩
  · have hl : lastVal (lastVal d A) (if lastVal d A = v then [] else [(b, v)]) = v := by
      split
      · rename_i h; exact h
      · rfl
    rw [hl, canonicalFrom_append]
    constructor
    · split
      · trivial
      · rename_i h
        exact ⟨h, trivial⟩
    · have hr : lastVal v (if lastVal d (A ++ M) = v then []
          else [(e, lastVal d (A ++ M))]) = lastVal d (A ++ M) := by
        split
        · rename_i h; exact h.symm
        · rfl
      rw [hr]
      exact hcC

variable [LinearOrder K]

theorem edges_sorted (d v : V) {b e : K} {A M C : List (K × V)} (hbe : b < e)
    (hs : Sorted (A ++ (M ++ C))) (hA : ∀ p ∈ A, p.1 < b) (hC : ∀ p ∈ C, e < p.1) :
    Sorted (edges d A M C b e v) := by
  obtain ⟨hsA, hsMC, -⟩ := sorted_append.1 hs
  obtain ⟨-, hsC, -⟩ := sorted_append.1 hsMC
  have hRE : ∀ p ∈ (if lastVal d (A ++ M) = v then [] else [(e, lastVal d (A ++ M))]),
      p.1 = e := by
    intro p hp
    split at hp
    · simp at hp
    · rw [List.mem_singleton.1 hp]
  have hLE : ∀ p ∈ (if lastVal d A = v then [] else [(b, v)]), p.1 = b := by
    intro p hp
    split at hp
    · simp at hp
    · rw [List.mem_singleton.1 hp]
  have hsRE : Sorted (if lastVal d (A ++ M) = v then [] else [(e, lastVal d (A ++ M))]) := by
    split
    · exact sorted_nil
    · exact sorted_singleton _
  have hsLE : Sorted (if lastVal d A = v then [] else [(b, v)]) := by
    split
    · exact sorted_nil
    · exact sorted_singleton _
  have h1 := sorted_of_le_gt e hsRE hsC (fun p hp => by rw [hRE p hp]; exact lt_irrefl _) hC
  have hb1 : ∀ p ∈ (if lastVal d (A ++ M) = v then [] else [(e, lastVal d (A ++ M))]) ++ C,
      b < p.1 := by
    intro p hp
    rcases List.mem_append.1 hp with h | h
    · rw [hRE p h]; exact hbe
    · exact lt_trans hbe (hC p h)
  have h2 := sorted_of_le_gt b hsLE h1 (fun p hp => by rw [hLE p hp]; exact lt_irrefl _) hb1
  refine sorted_of_lt_ge b hsA h2 hA ?_
  intro p hp
  rcases List.mem_append.1 hp with h | h
  · rw [hLE p h]; exact lt_irrefl _
  · exact not_lt.2 (le_of_lt (hb1 p h))

end interval_map

/-! ## One call and call sequences -/

namespace interval_map
open StdMap
variable {K V : Type} [LinearOrder K]

theorem exists_le_of_not_beforeFirst {m : interval_map K V} {b e : K} (hbe : b < e)
    (hne : m.m_map ≠ []) (h : ¬ beforeFirst m b e) : ∃ p ∈ m.m_map, ¬ e < p.1 := by
  by_contra hcon
  push_neg at hcon
  exact h ⟨hbe, hne, hcon⟩

variable [DecidableEq V]

/-- Some stored key is not above `e`: whatever `std::prev(m_map.begin())`
yields, the call leaves the store `edges`. -/
theorem assign_general (u : PrevOfBegin K V) (d v : V) {b e : K} {l : List (K × V)}
    (hbe : b < e) (hs : Sorted l) (hok : ∃ p ∈ l, ¬ e < p.1) :
    ∃ A M C, l = A ++ (M ++ C) ∧ (∀ p ∈ A, p.1 < b) ∧
      (∀ p ∈ M, ¬ p.1 < b ∧ ¬ e < p.1) ∧ (∀ p ∈ C, e < p.1) ∧
      assign u { m_valBegin := d, m_map := l } b e v =
        some { m_valBegin := d, m_map := edges d A M C b e v } := by
  obtain ⟨A, M, C, hl, hA, hM, hC⟩ := exists_split3 hs b e
  refine ⟨A, M, C, hl, hA, hM, hC, ?_⟩
  subst hl
  have hAM : A ++ M ≠ [] := by
    obtain ⟨p, hp, hpe⟩ := hok
    rw [← List.append_assoc] at hp
    rcases List.mem_append.1 hp with h | h
    · exact List.ne_nil_of_mem h
    · exact absurd (hC p h) hpe
  exact assign_split u d v hbe hs hA hM hC hAM

/-- One call that does not use `std::prev(m_map.begin())` returns a state with
the same default value and strictly increasing keys, canonical if the state
before was and the call is not a default-valued seed. -/
theorem assign_step (u : PrevOfBegin K V) (m : interval_map K V) (hs : Sorted m.m_map)
    (b e : K) (v : V) (h1 : ¬ beforeFirst m b e) :
    ∃ m2, m.assign u b e v = some m2 ∧ m2.m_valBegin = m.m_valBegin ∧ Sorted m2.m_map ∧
      (Canonical m → ¬ seedsDefault m b e v → Canonical m2) := by
  by_cases hbe : b < e
  · by_cases hne : m.m_map = []
    · obtain ⟨d, l⟩ := m
      simp only at hs hne
      subst hne
      refine ⟨_, assign_seed u d v hbe, rfl, ?_, ?_⟩
      · exact sorted_cons.2 ⟨by simpa using hbe, sorted_singleton _⟩
      · intro _ h2
        have hv : v ≠ d := fun h => h2 ⟨hbe, rfl, h⟩
        rw [canonical_iff]
        exact ⟨hv, fun h => hv h.symm, trivial⟩
    · have hok := exists_le_of_not_beforeFirst hbe hne h1
      obtain ⟨d, l⟩ := m
      simp only at hs hne hok
      obtain ⟨A, M, C, hl, hA, -, hC, ha⟩ := assign_general u d v hbe hs hok
      refine ⟨_, ha, rfl, edges_sorted d v hbe (hl ▸ hs) hA hC, ?_⟩
      intro hc _
      rw [canonical_iff] at hc ⊢
      exact edges_canonical d v b e (hl ▸ hc)
  · exact ⟨_, assign_invalid u _ v hbe, rfl, hs, fun hc _ => hc⟩

theorem assignAll_admissible (m : interval_map K V) (hs : Sorted m.m_map) (hc : Canonical m)
    (calls : List (PrevOfBegin K V × K × K × V)) (h : admissible m calls = true) :
    ∃ m2, assignAll m calls = some m2 ∧ m2.m_valBegin = m.m_valBegin ∧ Sorted m2.m_map ∧
      Canonical m2 := by
  induction calls generalizing m with
  | nil => exact ⟨m, rfl, rfl, hs, hc⟩
  | cons c cs ih =>
    simp only [admissible, Bool.and_eq_true, Bool.not_eq_true', decide_eq_false_iff_not] at h
    obtain ⟨⟨h1, h2⟩, h3⟩ := h
    obtain ⟨m1, ha, hd, hs1, hc1⟩ := assign_step c.1 m hs c.2.1 c.2.2.1 c.2.2.2 h2
    rw [ha] at h3
    obtain ⟨m2, hb, hd2, hs2, hc2⟩ := ih m1 hs1 (hc1 hc h1) h3
    refine ⟨m2, ?_, hd2.trans hd, hs2, hc2⟩
    simp only [assignAll, ha, Option.some_bind, hb]

end interval_map

/-! ## Repeating a call -/

namespace interval_map
open StdMap
variable {K V : Type} [LinearOrder K] [DecidableEq V]

/-- A second identical call leaves the state of the first, whatever
`std::prev(m_map.begin())` yields at either call, when neither call uses it:
the first call is not made before the first boundary, and the interval is
invalid, or a non-default value seeds an empty store, or the store is
non-empty before the first call and has a key not above `e` after it.  The
boundaries below `b` are kept by the first call. -/
theorem assign_twice (u u2 : PrevOfBegin K V) (m : interval_map K V) (hs : Sorted m.m_map)
    (b e : K) (v : V) (h1 : ¬ beforeFirst m b e) :
    ∃ m1, m.assign u b e v = some m1 ∧ (∀ p ∈ m.m_map, p.1 < b → p ∈ m1.m_map) ∧
      ((¬ b < e ∨ (m.m_map = [] ∧ v ≠ m.m_valBegin) ∨
          (m.m_map ≠ [] ∧ ∃ p ∈ m1.m_map, ¬ e < p.1)) →
        m1.assign u2 b e v = some m1) := by
  by_cases hbe : b < e
  · by_cases hne : m.m_map = []
    · obtain ⟨d, l⟩ := m
      simp only at hs hne
      subst hne
      refine ⟨_, assign_seed u d v hbe, by simp, ?_⟩
      intro hc
      have hv : v ≠ d := by
        rcases hc with h | h | h
        · exact absurd hbe h
        · exact h.2
        · exact absurd rfl h.1
      have hv2 : ¬ d = v := fun h => hv h.symm
      have := assign_split (A := []) (M := [(b, v), (e, d)]) (C := []) u2 d v hbe
        (by simpa [Sorted] using hbe) (by simp)
        (by simp [hbe, le_of_lt hbe]) (by simp) (by simp)
      simpa [lastVal, hv2] using this
    · have hok := exists_le_of_not_beforeFirst hbe hne h1
      obtain ⟨d, l⟩ := m
      simp only at hs hne hok
      obtain ⟨A, M, C, hl, hA, hM, hC, ha⟩ := assign_general u d v hbe hs hok
      have hkeep : ∀ p ∈ l, p.1 < b → p ∈ edges d A M C b e v := by
        intro p hp hpb
        rw [hl] at hp
        rcases List.mem_append.1 hp with h | h
        · exact List.mem_append_left _ h
        · rcases List.mem_append.1 h with h | h
          · exact absurd hpb (hM p h).1
          · exact absurd (lt_trans hpb hbe) (not_lt.2 (le_of_lt (hC p h)))
      refine ⟨_, ha, hkeep, ?_⟩
      intro hc
      simp only at hc ⊢
      have hsN := edges_sorted d v hbe (hl ▸ hs) hA hC
      have hN : edges d A M C b e v =
          A ++ (((if lastVal d A = v then [] else [(b, v)]) ++
            (if lastVal d (A ++ M) = v then [] else [(e, lastVal d (A ++ M))])) ++ C) := by
        simp [edges]
      have hmid : ∀ p ∈ (if lastVal d A = v then [] else [(b, v)]) ++
          (if lastVal d (A ++ M) = v then [] else [(e, lastVal d (A ++ M))]),
          ¬ p.1 < b ∧ ¬ e < p.1 := by
        intro p hp
        rcases List.mem_append.1 hp with h | h
        · split at h
          · simp at h
          · rw [List.mem_singleton.1 h]
            exact ⟨lt_irrefl _, not_lt.2 (le_of_lt hbe)⟩
        · split at h
          · simp at h
          · rw [List.mem_singleton.1 h]
            exact ⟨not_lt.2 (le_of_lt hbe), lt_irrefl _⟩
      have hAM : A ++ ((if lastVal d A = v then [] else [(b, v)]) ++
          (if lastVal d (A ++ M) = v then [] else [(e, lastVal d (A ++ M))])) ≠ [] := by
        rcases hc with h | h | ⟨-, p, hp, hpe⟩
        · exact absurd hbe h
        · exact absurd h.1 hne
        · rw [hN, ← List.append_assoc] at hp
          rcases List.mem_append.1 hp with h | h
          · exact List.ne_nil_of_mem h
          · exact absurd (hC p h) hpe
      rw [hN] at hsN ⊢
      rw [assign_split u2 d v hbe hsN hA hmid hC hAM, lastVal_edges_mid]
      simp
  · exact ⟨_, assign_invalid u _ v hbe, fun _ hp _ => hp, fun _ => assign_invalid u2 _ v hbe⟩

end interval_map

/-! ## Interpretation after a call -/

namespace interval_map
open StdMap
variable {K V : Type} [LinearOrder K]

theorem filter_le_all {X : List (K × V)} {k : K} (h : ∀ p ∈ X, ¬ k < p.1) :
    X.filter (fun p => ¬ k < p.1) = X :=
  List.filter_eq_self.2 (fun p hp => by simpa using h p hp)

theorem filter_le_none {X : List (K × V)} {k : K} (h : ∀ p ∈ X, k < p.1) :
    X.filter (fun p => ¬ k < p.1) = [] :=
  List.filter_eq_nil_iff.2 (fun p hp => by simpa using h p hp)

theorem lookup_eq_valueAt (m : interval_map K V) (hs : Sorted m.m_map) (k : K) :
    m.lookup k = some (valueAt m.m_valBegin m.m_map k) := by
  obtain ⟨P, C, h, hP, hC, hl⟩ := lookup_total m hs k
  rw [hl, valueAt, h, List.filter_append, filter_le_all hP, filter_le_none hC, List.append_nil]

variable [DecidableEq V]

theorem edges_valueAt (d v : V) {b e : K} {A M C : List (K × V)} (hbe : b < e)
    (hA : ∀ p ∈ A, p.1 < b) (hM : ∀ p ∈ M, ¬ p.1 < b ∧ ¬ e < p.1) (hC : ∀ p ∈ C, e < p.1)
    (k : K) :
    valueAt d (edges d A M C b e v) k =
      if ¬ k < b ∧ k < e then v else valueAt d (A ++ (M ++ C)) k := by
  have hRE : ∀ p ∈ (if lastVal d (A ++ M) = v then [] else [(e, lastVal d (A ++ M))]),
      p.1 = e := by
    intro p hp
    split at hp
    · simp at hp
    · rw [List.mem_singleton.1 hp]
  have hLE : ∀ p ∈ (if lastVal d A = v then [] else [(b, v)]), p.1 = b := by
    intro p hp
    split at hp
    · simp at hp
    · rw [List.mem_singleton.1 hp]
  have hl : lastVal (lastVal d A) (if lastVal d A = v then [] else [(b, v)]) = v := by
    split
    · rename_i h; exact h
    · rfl
  have hmid := lastVal_edges_mid d v b e A M
  unfold valueAt edges
  generalize (if lastVal d A = v then [] else [(b, v)]) = LE at hLE hl hmid ⊢
  generalize (if lastVal d (A ++ M) = v then [] else [(e, lastVal d (A ++ M))]) = RE
    at hRE hmid ⊢
  simp only [List.filter_append]
  by_cases hkb : k < b
  · have hke : k < e := lt_trans hkb hbe
    rw [if_neg (show ¬ (¬ k < b ∧ k < e) from fun h => h.1 hkb)]
    rw [filter_le_none (X := LE) (fun p hp => by rw [hLE p hp]; exact hkb),
      filter_le_none (X := RE) (fun p hp => by rw [hRE p hp]; exact hke),
      filter_le_none (X := C) (fun p hp => lt_trans hke (hC p hp)),
      filter_le_none (X := M) (fun p hp => lt_of_lt_of_le hkb (not_lt.1 (hM p hp).1))]
    simp only [List.append_nil]
  · have hAk : ∀ p ∈ A, ¬ k < p.1 := fun p hp =>
      not_lt.2 (le_of_lt (lt_of_lt_of_le (hA p hp) (not_lt.1 hkb)))
    by_cases hke : k < e
    · rw [if_pos (show ¬ k < b ∧ k < e from ⟨hkb, hke⟩)]
      rw [filter_le_all (X := A) hAk,
        filter_le_all (X := LE) (fun p hp => by rw [hLE p hp]; exact hkb),
        filter_le_none (X := RE) (fun p hp => by rw [hRE p hp]; exact hke),
        filter_le_none (X := C) (fun p hp => lt_trans hke (hC p hp))]
      simp only [List.append_nil, List.nil_append]
      rw [lastVal_append, hl]
    · rw [if_neg (show ¬ (¬ k < b ∧ k < e) from fun h => hke h.2)]
      rw [filter_le_all (X := A) hAk,
        filter_le_all (X := LE) (fun p hp => by rw [hLE p hp]; exact hkb),
        filter_le_all (X := RE) (fun p hp => by rw [hRE p hp]; exact hke),
        filter_le_all (X := M)
          (fun p hp => not_lt.2 (le_trans (not_lt.1 (hM p hp).2) (not_lt.1 hke)))]
      rw [← List.append_assoc LE, ← List.append_assoc A,
        lastVal_append, hmid, ← List.append_assoc A M, lastVal_append d (A ++ M)]

/-- One call that does not use `std::prev(m_map.begin())` overwrites the
interpretation on `[b, e)` with `v` and leaves it unchanged elsewhere. -/
theorem assign_valueAt (u : PrevOfBegin K V) (m : interval_map K V) (hs : Sorted m.m_map)
    {b e : K} (v : V) (hbe : b < e) (h1 : ¬ beforeFirst m b e) :
    ∃ m2, m.assign u b e v = some m2 ∧ m2.m_valBegin = m.m_valBegin ∧ Sorted m2.m_map ∧
      ∀ k, valueAt m2.m_valBegin m2.m_map k =
        if ¬ k < b ∧ k < e then v else valueAt m.m_valBegin m.m_map k := by
  obtain ⟨m2, ha, hd, hs2, -⟩ := assign_step u m hs b e v h1
  refine ⟨m2, ha, hd, hs2, ?_⟩
  obtain ⟨d, l⟩ := m
  simp only at hs hd ⊢
  by_cases hne : l = []
  · subst hne
    rw [assign_seed u d v hbe] at ha
    have hm2 := (Option.some.inj ha).symm
    subst hm2
    intro k
    have hnbe : ¬ e < b := not_lt.2 (le_of_lt hbe)
    by_cases hkb : k < b
    · have hke : k < e := lt_trans hkb hbe
      simp [valueAt, List.filter_cons, hkb, hke, lastVal]
    · have hkb2 : b ≤ k := not_lt.1 hkb
      by_cases hke : k < e
      · simp [valueAt, List.filter_cons, hkb, hkb2, hke, lastVal]
      · have hke2 : e ≤ k := not_lt.1 hke
        simp [valueAt, List.filter_cons, hkb, hkb2, hke, hke2, lastVal]
  · have hok := exists_le_of_not_beforeFirst hbe hne h1
    simp only at hok
    obtain ⟨A, M, C, hl, hA, hM, hC, ha2⟩ := assign_general u d v hbe hs hok
    rw [ha2] at ha
    have hm2 := (Option.some.inj ha).symm
    subst hm2
    intro k
    rw [hl]
    exact edges_valueAt d v hbe hA hM hC k

/-- The store left by a call made before the first boundary has strictly
increasing keys and is interpreted as `v` on `[b, e)`, whatever
`std::prev(m_map.begin())` yields. -/
theorem beforeFirstStore_range (u : PrevOfBegin K V) (d v : V) {b e : K} (p0 : K × V)
    {l : List (K × V)} (hbe : b < e) (hs : Sorted l) (hC : ∀ p ∈ l, e < p.1) :
    Sorted (beforeFirstStore u d p0 l b e v) ∧
      ∀ k, ¬ k < b → k < e → valueAt d (beforeFirstStore u d p0 l b e v) k = v := by
  have hbl : ∀ p ∈ l, b < p.1 := fun p hp => lt_trans hbe (hC p hp)
  have h0 : ∀ k, k < e → valueAt d l k = d := by
    intro k hke
    rw [valueAt, filter_le_none (fun p hp => lt_trans hke (hC p hp))]
    rfl
  have hs1 : Sorted ((b, v) :: l) := sorted_cons.2 ⟨hbl, hs⟩
  have hs2 : Sorted ((b, v) :: (e, d) :: l) :=
    sorted_cons.2 ⟨fun p hp => by
      rcases List.mem_cons.1 hp with h | h
      · rw [h]; exact hbe
      · exact hbl p h, sorted_cons.2 ⟨hC, hs⟩⟩
  have h1 : ∀ k, ¬ k < b → k < e → valueAt d ((b, v) :: l) k = v := by
    intro k hkb hke
    rw [valueAt, List.filter_cons, if_pos (by simpa using hkb),
      filter_le_none (fun p hp => lt_trans hke (hC p hp))]
    rfl
  have h2 : ∀ k, ¬ k < b → k < e → valueAt d ((b, v) :: (e, d) :: l) k = v := by
    intro k hkb hke
    rw [valueAt, List.filter_cons, if_pos (by simpa using hkb), List.filter_cons,
      if_neg (by simpa using hke), filter_le_none (fun p hp => lt_trans hke (hC p hp))]
    rfl
  have h3 : ∀ k, ¬ k < b → valueAt d [(b, v)] k = v := by
    intro k hkb
    rw [valueAt, List.filter_cons, if_pos (by simpa using hkb)]
    rfl
  cases u with
  | first =>
    simp only [beforeFirstStore]
    split
    · split
      · rename_i hvd
        exact ⟨hs, fun k _ hke => (h0 k hke).trans hvd.symm⟩
      · exact ⟨hs1, h1⟩
    · exact ⟨hs2, h2⟩
  | header junk =>
    simp only [beforeFirstStore]
    split
    · rename_i hvd
      exact ⟨hs, fun k _ hke => (h0 k hke).trans hvd.symm⟩
    · split
      · exact ⟨hs1, h1⟩
      · split
        · exact ⟨sorted_singleton _, fun k hkb _ => h3 k hkb⟩
        · exact ⟨hs2, h2⟩

/-- Range correctness of one call, whatever `std::prev(m_map.begin())`
yields: the call returns a state with strictly increasing keys and the same
default value that is interpreted as `v` on `[b, e)`. -/
theorem assign_range (u : PrevOfBegin K V) (m : interval_map K V) (hs : Sorted m.m_map)
    {b e : K} (v : V) (hbe : b < e) :
    ∃ m2, m.assign u b e v = some m2 ∧ m2.m_valBegin = m.m_valBegin ∧ Sorted m2.m_map ∧
      ∀ k, ¬ k < b → k < e → valueAt m2.m_valBegin m2.m_map k = v := by
  by_cases h1 : beforeFirst m b e
  · obtain ⟨d, l⟩ := m
    obtain ⟨-, hne, hC⟩ := h1
    simp only at hs hne hC
    cases l with
    | nil => exact absurd rfl hne
    | cons p0 t =>
      obtain ⟨hsN, hr⟩ := beforeFirstStore_range u d v p0 hbe hs hC
      exact ⟨_, assign_before_first u d v hbe hs hC, rfl, hsN, hr⟩
  · obtain ⟨m2, ha, hd, hs2, hv⟩ := assign_valueAt u m hs v hbe h1
    refine ⟨m2, ha, hd, hs2, fun k hkb hke => ?_⟩
    rw [hv k, if_pos ⟨hkb, hke⟩]

/-- Every sequence of calls on a state with strictly increasing keys returns,
whatever `std::prev(m_map.begin())` yields at each call; the keys stay
strictly increasing and the default value is unchanged. -/
theorem assignAll_sorted (m : interval_map K V) (hs : Sorted m.m_map)
    (calls : List (PrevOfBegin K V × K × K × V)) :
    ∃ m2, assignAll m calls = some m2 ∧ m2.m_valBegin = m.m_valBegin ∧ Sorted m2.m_map := by
  induction calls generalizing m with
  | nil => exact ⟨m, rfl, rfl, hs⟩
  | cons c cs ih =>
    have key : ∃ m1, m.assign c.1 c.2.1 c.2.2.1 c.2.2.2 = some m1 ∧
        m1.m_valBegin = m.m_valBegin ∧ Sorted m1.m_map := by
      by_cases hbe : c.2.1 < c.2.2.1
      · obtain ⟨m1, ha, hd, hs1, -⟩ := assign_range c.1 m hs c.2.2.2 hbe
        exact ⟨m1, ha, hd, hs1⟩
      · exact ⟨m, assign_invalid c.1 m c.2.2.2 hbe, rfl, hs⟩
    obtain ⟨m1, ha, hd, hs1⟩ := key
    obtain ⟨m2, hb, hd2, hs2⟩ := ih m1 hs1
    refine ⟨m2, ?_, hd2.trans hd, hs2⟩
    simp only [assignAll, ha, Option.some_bind, hb]

end interval_map
/-! ## Dense reference model -/

namespace interval_map
open StdMap
variable {K V : Type}

theorem canonical_new (d : V) : Canonical (new d : interval_map K V) := by
  simp [Canonical, new]

variable [LinearOrder K] [DecidableEq V]

/-- Along a call sequence that never uses `std::prev(m_map.begin())` the
lookups agree with the dense reference model started from the interpretation
of the initial state. -/
theorem assignAll_defined (m : interval_map K V) (hs : Sorted m.m_map) (f : K → V)
    (hf : ∀ k, valueAt m.m_valBegin m.m_map k = f k)
    (calls : List (PrevOfBegin K V × K × K × V)) (h : defined m calls = true) :
    ∃ m2, assignAll m calls = some m2 ∧ Sorted m2.m_map ∧
      ∀ k, m2.lookup k =
        some ((calls.map Prod.snd).foldl (fun g c => refAssign g c.1 c.2.1 c.2.2) f k) := by
  induction calls generalizing m f with
  | nil =>
    refine ⟨m, rfl, hs, fun k => ?_⟩
    rw [lookup_eq_valueAt m hs k, hf k]
    rfl
  | cons c cs ih =>
    simp only [defined, Bool.and_eq_true, Bool.not_eq_true', decide_eq_false_iff_not] at h
    obtain ⟨h1, h2⟩ := h
    have key : ∃ m1, m.assign c.1 c.2.1 c.2.2.1 c.2.2.2 = some m1 ∧ Sorted m1.m_map ∧
        ∀ k, valueAt m1.m_valBegin m1.m_map k = refAssign f c.2.1 c.2.2.1 c.2.2.2 k := by
      by_cases hbe : c.2.1 < c.2.2.1
      · obtain ⟨m1, ha, hd, hs1, hv⟩ := assign_valueAt c.1 m hs c.2.2.2 hbe h1
        refine ⟨m1, ha, hs1, fun k => ?_⟩
        rw [hv k, hf k]
        simp [refAssign, hbe]
      · refine ⟨m, assign_invalid c.1 m c.2.2.2 hbe, hs, fun k => ?_⟩
        rw [hf k]
        simp [refAssign, hbe]
    obtain ⟨m1, ha, hs1, hv⟩ := key
    rw [ha] at h2
    obtain ⟨m2, hb, hs2, hl⟩ := ih m1 hs1 _ hv h2
    refine ⟨m2, ?_, hs2, hl⟩
    simp only [assignAll, ha, Option.some_bind, hb]

/-- From a fresh map, along a call sequence that never uses
`std::prev(m_map.begin())`, every lookup agrees with the dense reference
model of the calls. -/
theorem assignAll_reference (d : V) (calls : List (PrevOfBegin K V × K × K × V))
    (h : defined (new d : interval_map K V) calls = true) :
    ∃ m, assignAll (new d) calls = some m ∧
      ∀ k, m.lookup k = some (reference d (calls.map Prod.snd) k) := by
  obtain ⟨m, ha, -, hl⟩ := assignAll_defined (new d : interval_map K V) sorted_nil
    (fun _ => d) (fun k => by simp [new, valueAt, lastVal]) calls h
  exact ⟨m, ha, hl⟩

end interval_map
/-! ## Properties of the specification -/

namespace interval_map
open StdMap

/-- The three calls of the demonstration scenario (`main`, lines 172-180)
leave the boundaries `(0,'B')`, `(2,'C')`, `(4,'A')`.  No call evaluates
`std::prev(m_map.begin())`, so its outcomes `u1`, `u2`, `u3` do not matter. -/
theorem scenario_state (u1 u2 u3 : PrevOfBegin Int Char) :
    assignAll (new 'A' : interval_map Int Char)
        [(u1, 0, 6, 'B'), (u2, 2, 5, 'C'), (u3, 4, 7, 'A')] =
      some { m_valBegin := 'A', m_map := [(0, 'B'), (2, 'C'), (4, 'A')] } := by
  have h1 : assign u1 (new 'A' : interval_map Int Char) 0 6 'B' =
      some { m_valBegin := 'A', m_map := [(0, 'B'), (6, 'A')] } :=
    assign_seed u1 'A' 'B' (by decide)
  have h2 : assign u2 ({ m_valBegin := 'A', m_map := [(0, 'B'), (6, 'A')] } :
      interval_map Int Char) 2 5 'C' =
      some { m_valBegin := 'A', m_map := [(0, 'B'), (2, 'C'), (5, 'B'), (6, 'A')] } :=
    assign_split (A := [(0, 'B')]) (M := []) (C := [(6, 'A')]) u2 'A' 'C' (by decide)
      (by unfold Sorted; decide) (by decide) (by decide) (by decide) (by decide)
  have h3 : assign u3 ({ m_valBegin := 'A', m_map := [(0, 'B'), (2, 'C'), (5, 'B'), (6, 'A')] } :
      interval_map Int Char) 4 7 'A' =
      some { m_valBegin := 'A', m_map := [(0, 'B'), (2, 'C'), (4, 'A')] } :=
    assign_split (A := [(0, 'B'), (2, 'C')]) (M := [(5, 'B'), (6, 'A')]) (C := []) u3 'A' 'A'
      (by decide) (by unfold Sorted; decide) (by decide) (by decide) (by decide) (by decide)
  simp only [assignAll, h1, h2, h3, Option.some_bind]

/-- C1.  For every state reached from a freshly constructed map by a finite
sequence of `assign` calls, every `keyBegin < keyEnd` and every `val`, the
call `assign(keyBegin, keyEnd, val)` returns and afterwards `operator[](k)`
returns `val` for every key `k` with `¬ k < keyBegin` and `k < keyEnd`.  This
holds whatever `std::prev(m_map.begin())` yields, at the calls of the sequence
and at the last call. -/
theorem range_correctness {K V : Type} [LinearOrder K] [DecidableEq V] (d : V)
    (calls : List (PrevOfBegin K V × K × K × V)) (u : PrevOfBegin K V) (b e : K) (v : V)
    (hbe : b < e) :
    ∃ m, assignAll (new d) calls = some m ∧
      ∃ m2, m.assign u b e v = some m2 ∧
        ∀ k, ¬ k < b → k < e → m2.lookup k = some v := by
  obtain ⟨m, ha, -, hs⟩ := assignAll_sorted (new d : interval_map K V) sorted_nil calls
  obtain ⟨m2, hb, -, hs2, hv⟩ := assign_range u m hs v hbe
  exact ⟨m, ha, m2, hb, fun k hkb hke => by rw [lookup_eq_valueAt m2 hs2 k, hv k hkb hke]⟩

/-- Witness for C1: after `assign(5,6,'B')`, the call `assign(0,1,'C')` made
before the first boundary. -/
theorem range_correctness_witness :
    (0 : Int) < 1 ∧
      ∃ m, assignAll (new 'A' : interval_map Int Char) [(PrevOfBegin.first, 5, 6, 'B')] =
          some m ∧
        ∃ m2, m.assign PrevOfBegin.first 0 1 'C' = some m2 ∧
          ∀ k : Int, ¬ k < 0 → k < 1 → m2.lookup k = some 'C' :=
  ⟨by decide, range_correctness 'A' [(PrevOfBegin.first, 5, 6, 'B')] PrevOfBegin.first 0 1 'C'
    (by decide)⟩

/-- C2, failing input.  Frame preservation asks that a key outside
`[keyBegin, keyEnd)` looks up to the same value before and after the call.
From default `'A'`, `assign(5,6,'B')` leaves `(5,'B')`, `(6,'A')` and key `3`
looks up to `'A'`.  The call `assign(0,1,'B')` finds every stored key beyond
`keyEnd`, so `prevEnd` is `std::prev(m_map.begin())`, which for this
two-node tree is `begin()` itself; line 96 reads `'B'` through it, equal to
`val`, the right edge is skipped, line 122 stores `(0,'B')`, and key `3` looks
up to `'B'`. -/
theorem frame_preservation_failing_input :
    assignAll (new 'A' : interval_map Int Char) [(PrevOfBegin.first, 5, 6, 'B')] =
        some { m_valBegin := 'A', m_map := [(5, 'B'), (6, 'A')] } ∧
      lookup ({ m_valBegin := 'A', m_map := [(5, 'B'), (6, 'A')] } : interval_map Int Char) 3 = some 'A' ∧
      assign PrevOfBegin.first ({ m_valBegin := 'A', m_map := [(5, 'B'), (6, 'A')] } : interval_map Int Char) 0 1 'B' =
        some { m_valBegin := 'A', m_map := [(0, 'B'), (5, 'B'), (6, 'A')] } ∧
      lookup ({ m_valBegin := 'A', m_map := [(0, 'B'), (5, 'B'), (6, 'A')] } :
        interval_map Int Char) 3 = some 'B' := by
  decide

/-- C3, counterexample.  From default `'A'` the single call `assign(0,1,'A')`
takes the empty-store path and stores `(0,'A')` and `(1,'A')`: the first stored
value equals the default value and the two adjacent values are equal. -/
theorem canonical_fails_after_default_seed :
    ∃ m, assignAll (new 'A' : interval_map Int Char) [(PrevOfBegin.first, 0, 1, 'A')] =
        some m ∧ ¬ Canonical m := by
  refine ⟨{ m_valBegin := 'A', m_map := [(0, 'A'), (1, 'A')] }, by decide, ?_⟩
  intro h
  exact h.1 (0, 'A') rfl rfl

/-- C3, amended.  After any finite sequence of `assign` calls applied to a
freshly constructed map, in which no call with `keyBegin < keyEnd` assigns the
default value to an empty store and no call with `keyBegin < keyEnd` is made
on a non-empty store whose keys all lie beyond `keyEnd` (the calls that use
`std::prev(m_map.begin())`), every call returns, the default value is
unchanged, the first stored value differs from the default value and every two
key-adjacent stored values differ. -/
theorem canonical_after_admissible_calls {K V : Type} [LinearOrder K] [DecidableEq V]
    (d : V) (calls : List (PrevOfBegin K V × K × K × V))
    (h : admissible (new d : interval_map K V) calls = true) :
    ∃ m, assignAll (new d) calls = some m ∧ m.m_valBegin = d ∧ Canonical m := by
  obtain ⟨m, ha, hd, -, hc⟩ :=
    assignAll_admissible (new d : interval_map K V) sorted_nil (canonical_new d) calls h
  exact ⟨m, ha, hd, hc⟩

/-- Witness for C3: `assign(5,6,'B')`, then `assign(3,5,'C')`, whose
`keyBegin` lies before the first boundary and whose `keyEnd` does not, then
`assign(4,7,'A')`. -/
theorem canonical_after_admissible_calls_witness :
    admissible (new 'A' : interval_map Int Char)
        [(PrevOfBegin.first, 5, 6, 'B'), (PrevOfBegin.first, 3, 5, 'C'),
          (PrevOfBegin.first, 4, 7, 'A')] = true ∧
      ∃ m, assignAll (new 'A' : interval_map Int Char)
          [(PrevOfBegin.first, 5, 6, 'B'), (PrevOfBegin.first, 3, 5, 'C'),
            (PrevOfBegin.first, 4, 7, 'A')] = some m ∧
        m.m_valBegin = 'A' ∧ Canonical m :=
  ⟨by decide, canonical_after_admissible_calls 'A' _ (by decide)⟩

/-- C4.  For every map state and every `b`, `e`, `v` with `¬ b < e`,
`assign(b, e, v)` returns with the stored boundaries and the default value
unchanged, hence `operator[]` is unchanged for every key. -/
theorem assign_invalid_interval_noop {K V : Type} [LinearOrder K] [DecidableEq V]
    (u : PrevOfBegin K V) (m : interval_map K V) (b e : K) (v : V) (h : ¬ b < e) :
    ∃ m2, m.assign u b e v = some m2 ∧ m2.m_map = m.m_map ∧ m2.m_valBegin = m.m_valBegin ∧
      ∀ k, m2.lookup k = m.lookup k :=
  ⟨m, assign_invalid u m v h, rfl, rfl, fun _ => rfl⟩

/-- Witness for C4: the reversed interval `assign(5,2,'C')`. -/
theorem assign_invalid_interval_noop_witness :
    ¬ ((5 : Int) < 2) ∧
      ∃ m2, assign PrevOfBegin.first
          ({ m_valBegin := 'A', m_map := [(0, 'B'), (6, 'A')] } : interval_map Int Char)
          5 2 'C' = some m2 ∧
        m2.m_map = [(0, 'B'), (6, 'A')] ∧ m2.m_valBegin = 'A' ∧
        ∀ k, m2.lookup k =
          lookup ({ m_valBegin := 'A', m_map := [(0, 'B'), (6, 'A')] } : interval_map Int Char) k :=
  ⟨by decide, assign_invalid_interval_noop PrevOfBegin.first _ 5 2 'C' (by decide)⟩

/-- C5, counterexample.  From default `'A'`, `assign(0,1,'A')` once leaves the
boundaries `(0,'A')`, `(1,'A')`; the same call a second time erases both and
leaves the store empty. -/
theorem assign_twice_differs_after_default_seed :
    assignAll (new 'A' : interval_map Int Char) [(PrevOfBegin.first, 0, 1, 'A')] =
        some { m_valBegin := 'A', m_map := [(0, 'A'), (1, 'A')] } ∧
      assignAll (new 'A' : interval_map Int Char)
          [(PrevOfBegin.first, 0, 1, 'A'), (PrevOfBegin.first, 0, 1, 'A')] =
        some { m_valBegin := 'A', m_map := [] } ∧
      assignAll (new 'A' : interval_map Int Char)
          [(PrevOfBegin.first, 0, 1, 'A'), (PrevOfBegin.first, 0, 1, 'A')] ≠
        assignAll (new 'A' : interval_map Int Char) [(PrevOfBegin.first, 0, 1, 'A')] := by
  decide

/-- C5, amended.  For every state with strictly increasing keys and every
`b`, `e`, `v` such that the call does not assign the default value to an empty
store and is not made with `b < e` on a non-empty store whose keys all lie
beyond `e`, `assign(b, e, v)` returns; and if `¬ b < e`, or the state it
leaves has a stored key that is not greater than `e`, a second
`assign(b, e, v)` returns that same state (same default value, same stored
boundaries).  This holds whatever `std::prev(m_map.begin())` yields at either
call. -/
theorem assign_twice_same_state {K V : Type} [LinearOrder K] [DecidableEq V]
    (u u2 : PrevOfBegin K V) (m : interval_map K V) (hs : Sorted m.m_map) (b e : K) (v : V)
    (h1 : ¬ beforeFirst m b e) (h2 : ¬ seedsDefault m b e v) :
    ∃ m1, m.assign u b e v = some m1 ∧
      ((¬ b < e ∨ ∃ p ∈ m1.m_map, ¬ e < p.1) → m1.assign u2 b e v = some m1) := by
  obtain ⟨m1, ha, -, h⟩ := assign_twice u u2 m hs b e v h1
  refine ⟨m1, ha, fun hc => h ?_⟩
  by_cases hbe : b < e
  · by_cases hne : m.m_map = []
    · exact Or.inr (Or.inl ⟨hne, fun hv => h2 ⟨hbe, hne, hv⟩⟩)
    · rcases hc with hc | hc
      · exact absurd hbe hc
      · exact Or.inr (Or.inr ⟨hne, hc⟩)
  · exact Or.inl hbe

/-- Witness for C5: `assign(2,5,'C')` on the store `(0,'B')`, `(6,'A')`. -/
theorem assign_twice_same_state_witness :
    Sorted [((0 : Int), 'B'), (6, 'A')] ∧
      ¬ beforeFirst ({ m_valBegin := 'A', m_map := [(0, 'B'), (6, 'A')] } : interval_map Int Char)
        2 5 ∧
      ¬ seedsDefault ({ m_valBegin := 'A', m_map := [(0, 'B'), (6, 'A')] } :
        interval_map Int Char) 2 5 'C' ∧
      ∃ m1, assign PrevOfBegin.first
          ({ m_valBegin := 'A', m_map := [(0, 'B'), (6, 'A')] } : interval_map Int Char)
          2 5 'C' = some m1 ∧
        ((¬ (2 : Int) < 5 ∨ ∃ p ∈ m1.m_map, ¬ (5 : Int) < p.1) →
          m1.assign PrevOfBegin.first 2 5 'C' = some m1) :=
  ⟨by unfold Sorted; decide, by decide, by decide,
    assign_twice_same_state PrevOfBegin.first PrevOfBegin.first _ (by unfold Sorted; decide)
      2 5 'C' (by decide) (by decide)⟩

/-- C6.  For every map state with strictly increasing keys and every key
`k`, `operator[](k)` returns a value (it never fails); it returns the default
value `m_valBegin` when every stored key is greater than `k` (in particular
when the store is empty), and otherwise the value stored at the greatest
stored key that is not greater than `k`. -/
theorem lookup_greatest_stored_key {K V : Type} [LinearOrder K] (m : interval_map K V) (hs : Sorted m.m_map) (k : K) :
    (∃ v, m.lookup k = some v) ∧
    ((∀ p ∈ m.m_map, k < p.1) → m.lookup k = some m.m_valBegin) ∧
    (∀ p ∈ m.m_map, ¬ k < p.1 → (∀ q ∈ m.m_map, ¬ k < q.1 → ¬ p.1 < q.1) →
      m.lookup k = some p.2) := by
  obtain ⟨P, C, h, hP, hC, hl⟩ := lookup_total m hs k
  refine ⟨⟨_, hl⟩, ?_, ?_⟩
  · intro hall
    have : P = [] := by
      cases P with
      | nil => rfl
      | cons a t => exact absurd (hall a (by rw [h]; simp)) (hP a (by simp))
    rw [hl, this]; rfl
  · intro p hp hpk hmax
    rw [hl]
    have hpP : p ∈ P := by
      rw [h] at hp
      rcases List.mem_append.1 hp with h1 | h1
      · exact h1
      · exact absurd (hC p h1) hpk
    cases hpl : P.getLast? with
    | none =>
      have : P = [] := List.getLast?_eq_none_iff.1 hpl
      rw [this] at hpP; simp at hpP
    | some pe =>
      rw [lastVal_of_getLast hpl]
      obtain ⟨P0, rfl⟩ := List.getLast?_eq_some_iff.1 hpl
      rcases List.mem_append.1 hpP with h1 | h1
      · exfalso
        rw [h] at hs
        have hlt : p.1 < pe.1 :=
          (sorted_append.1 (sorted_append.1 hs).1).2.2 p h1 pe (by simp)
        exact hmax pe (by rw [h]; simp) (hP pe (by simp)) hlt
      · rw [List.mem_singleton.1 h1]

/-- Witness for C6: key `3` on the store `(0,'B')`, `(2,'C')`, `(4,'A')`. -/
theorem lookup_greatest_stored_key_witness :
    Sorted [((0 : Int), 'B'), (2, 'C'), (4, 'A')] ∧
      ((∃ v, lookup ({ m_valBegin := 'A', m_map := [(0, 'B'), (2, 'C'), (4, 'A')] } :
          interval_map Int Char) 3 = some v) ∧
        ((∀ p ∈ [((0 : Int), 'B'), (2, 'C'), (4, 'A')], 3 < p.1) →
          lookup ({ m_valBegin := 'A', m_map := [(0, 'B'), (2, 'C'), (4, 'A')] } :
            interval_map Int Char) 3 = some 'A') ∧
        (∀ p ∈ [((0 : Int), 'B'), (2, 'C'), (4, 'A')], ¬ 3 < p.1 →
          (∀ q ∈ [((0 : Int), 'B'), (2, 'C'), (4, 'A')], ¬ 3 < q.1 → ¬ p.1 < q.1) →
          lookup ({ m_valBegin := 'A', m_map := [(0, 'B'), (2, 'C'), (4, 'A')] } :
            interval_map Int Char) 3 = some p.2)) :=
  ⟨by unfold Sorted; decide,
    lookup_greatest_stored_key
      ({ m_valBegin := 'A', m_map := [(0, 'B'), (2, 'C'), (4, 'A')] } : interval_map Int Char)
      (by unfold Sorted; decide) 3⟩

/-- C7.  For every default value `d`, the map constructed with `d` has an
empty boundary store and `operator[](k)` returns `d` for every key `k`. -/
theorem lookup_new_default {K V : Type} [LinearOrder K] (d : V) :
    (new d : interval_map K V).m_map = [] ∧
      ∀ k : K, (new d : interval_map K V).lookup k = some d := by
  refine ⟨rfl, fun k => ?_⟩
  simp [new, lookup, upper_bound, begin]

/-- C8, failing input.  Agreement with the dense reference model asks that
after every call every lookup equals the reference function.  From default
`'A'`, after `assign(5,6,'B')` the call `assign(0,1,'B')` uses
`std::prev(m_map.begin())`, which for this two-node tree is `begin()` itself:
it reads `'B'` through it, skips the right edge and stores only `(0,'B')`.
Key `3` then looks up to `'B'`, while the reference function maps it to
`'A'`. -/
theorem reference_agreement_failing_input :
    assignAll (new 'A' : interval_map Int Char)
        [(PrevOfBegin.first, 5, 6, 'B'), (PrevOfBegin.first, 0, 1, 'B')] =
        some { m_valBegin := 'A', m_map := [(0, 'B'), (5, 'B'), (6, 'A')] } ∧
      (assignAll (new 'A' : interval_map Int Char)
        [(PrevOfBegin.first, 5, 6, 'B'), (PrevOfBegin.first, 0, 1, 'B')]).bind
          (fun m => m.lookup 3) = some 'B' ∧
      reference 'A' [((5 : Int), (6 : Int), 'B'), (0, 1, 'B')] 3 = 'A' := by
  decide

/-- C9.  On an `interval_map<int,char>` constructed with default `'A'`, after
`assign(0,6,'B')`, `assign(2,5,'C')`, `assign(4,7,'A')` in that order,
`operator[](i)` is `'A'` for `i < 0`, `'B'` for `0 <= i < 2`, `'C'` for
`2 <= i < 4`, `'A'` for `4 <= i < 7` and `'A'` for `i >= 7`; this holds for
every integer `i`, in particular for `i` from `-5` to `12`. -/
theorem scenario_lookups (u1 u2 u3 : PrevOfBegin Int Char) :
    ∃ m, assignAll (new 'A' : interval_map Int Char)
        [(u1, 0, 6, 'B'), (u2, 2, 5, 'C'), (u3, 4, 7, 'A')] = some m ∧
      ∀ i : Int, m.lookup i =
        some (if i < 0 then 'A' else if i < 2 then 'B' else if i < 4 then 'C'
          else if i < 7 then 'A' else 'A') := by
  refine ⟨{ m_valBegin := 'A', m_map := [(0, 'B'), (2, 'C'), (4, 'A')] },
    scenario_state u1 u2 u3, ?_⟩
  intro i
  rw [lookup_eq_valueAt _ (by unfold Sorted; decide)]
  by_cases h0 : i < 0
  · have h2 : i < 2 := by omega
    have h4 : i < 4 := by omega
    simp [valueAt, List.filter_cons, lastVal, h0, h2, h4]
  · by_cases h2 : i < 2
    · have h4 : i < 4 := by omega
      have h0b : 0 ≤ i := by omega
      simp [valueAt, List.filter_cons, lastVal, h0, h2, h4, h0b]
    · have h0b : 0 ≤ i := by omega
      have h2b : 2 ≤ i := by omega
      by_cases h4 : i < 4
      · simp [valueAt, List.filter_cons, lastVal, h0, h2, h4, h0b, h2b]
      · have h4b : 4 ≤ i := by omega
        simp [valueAt, List.filter_cons, lastVal, h0, h2, h4, h0b, h2b, h4b]

/-- C10, counterexample.  After the three calls of the scenario the boundary
store is not the two boundaries `(0,'B')`, `(2,'A')`. -/
theorem scenario_store_not_two_boundaries :
    (assignAll (new 'A' : interval_map Int Char)
        [(PrevOfBegin.first, 0, 6, 'B'), (PrevOfBegin.first, 2, 5, 'C'),
          (PrevOfBegin.first, 4, 7, 'A')]).map (fun m => m.m_map) ≠
      some [(0, 'B'), (2, 'A')] := by
  decide

/-- C10, amended.  On an `interval_map<int,char>` constructed with default
`'A'`, after `assign(0,6,'B')`, `assign(2,5,'C')`, `assign(4,7,'A')` in that
order, the boundary store contains exactly three boundaries, `(0,'B')`,
`(2,'C')` and `(4,'A')`. -/
theorem scenario_store (u1 u2 u3 : PrevOfBegin Int Char) :
    (assignAll (new 'A' : interval_map Int Char)
        [(u1, 0, 6, 'B'), (u2, 2, 5, 'C'), (u3, 4, 7, 'A')]).map (fun m => m.m_map) =
      some [(0, 'B'), (2, 'C'), (4, 'A')] := by
  rw [scenario_state u1 u2 u3]
  rfl

end interval_map
/-! ## Uniqueness of the canonical store -/

namespace interval_map
open StdMap
variable {K V : Type} [LinearOrder K]

theorem valueAt_of_all_gt (d : V) {t : List (K × V)} {k : K} (h : ∀ q ∈ t, k < q.1) :
    valueAt d t k = d := by
  unfold valueAt
  rw [filter_le_none h]
  rfl

theorem valueAt_cons_ge (d : V) (p : K × V) (t : List (K × V)) {k : K} (h : ¬ k < p.1) :
    valueAt d (p :: t) k = valueAt p.2 t k := by
  unfold valueAt
  rw [List.filter_cons, if_pos (by simpa using h), lastVal_cons]

theorem valueAt_cons_lt (d : V) {p : K × V} {t : List (K × V)} {k : K}
    (hs : Sorted (p :: t)) (h : k < p.1) : valueAt d (p :: t) k = d := by
  apply valueAt_of_all_gt
  intro q hq
  rcases List.mem_cons.1 hq with h1 | h1
  · rw [h1]; exact h
  · exact lt_trans h ((sorted_cons.1 hs).1 q h1)

theorem valueAt_head (d : V) {p : K × V} {t : List (K × V)} (hs : Sorted (p :: t)) :
    valueAt d (p :: t) p.1 = p.2 := by
  rw [valueAt_cons_ge d p t (lt_irrefl _)]
  exact valueAt_of_all_gt p.2 (sorted_cons.1 hs).1

/-- Two canonical stores with strictly increasing keys and the same
interpretation are the same list. -/
theorem canonicalFrom_unique (d : V) (l1 l2 : List (K × V)) (hs1 : Sorted l1)
    (hs2 : Sorted l2) (hc1 : canonicalFrom d l1) (hc2 : canonicalFrom d l2)
    (h : ∀ k, valueAt d l1 k = valueAt d l2 k) : l1 = l2 := by
  induction l1 generalizing d l2 with
  | nil =>
    cases l2 with
    | nil => rfl
    | cons p2 t2 =>
      exfalso
      have := h p2.1
      rw [valueAt_head d hs2] at this
      exact hc2.1 this.symm
  | cons p1 t1 ih =>
    cases l2 with
    | nil =>
      exfalso
      have := h p1.1
      rw [valueAt_head d hs1] at this
      exact hc1.1 this
    | cons p2 t2 =>
      have hk : p1.1 = p2.1 := by
        rcases lt_trichotomy p1.1 p2.1 with hlt | heq | hgt
        · exfalso
          have := h p1.1
          rw [valueAt_head d hs1, valueAt_cons_lt d hs2 hlt] at this
          exact hc1.1 this
        · exact heq
        · exfalso
          have := h p2.1
          rw [valueAt_head d hs2, valueAt_cons_lt d hs1 hgt] at this
          exact hc2.1 this.symm
      have hv : p1.2 = p2.2 := by
        have := h p1.1
        rw [valueAt_head d hs1, hk, valueAt_head d hs2] at this
        exact this
      have hp : p1 = p2 := Prod.ext hk hv
      subst hp
      congr 1
      refine ih p1.2 t2 (sorted_cons.1 hs1).2 (sorted_cons.1 hs2).2 hc1.2 hc2.2 ?_
      intro k
      by_cases hlt : k < p1.1
      · rw [valueAt_of_all_gt p1.2 (fun q hq => lt_trans hlt ((sorted_cons.1 hs1).1 q hq)),
          valueAt_of_all_gt p1.2 (fun q hq => lt_trans hlt ((sorted_cons.1 hs2).1 q hq))]
      · have := h k
        rwa [valueAt_cons_ge d p1 t1 hlt, valueAt_cons_ge d p1 t2 hlt] at this

end interval_map

/-! ## Boundaries stored after a call on the general path -/

namespace interval_map
open StdMap
variable {K V : Type} [LinearOrder K] [DecidableEq V]

/-- On a non-empty store with strictly increasing keys and some key not above
`e`, the boundaries stored after `assign(b, e, v)` are: the old
boundaries with keys below `b` or above `e`; `(b, v)` exactly when the value
in force immediately left of `b` differs from `v`; and `(e, rv)`, `rv` being
the value in force at `e` before the call, exactly when `rv` differs from `v`. -/
theorem assign_members (u : PrevOfBegin K V) (m : interval_map K V) (hs : Sorted m.m_map)
    (hne : m.m_map ≠ []) {b e : K} (hbe : b < e) (v : V) (h1 : ¬ beforeFirst m b e) :
    ∃ m2, m.assign u b e v = some m2 ∧ m2.m_valBegin = m.m_valBegin ∧
      ∀ p, p ∈ m2.m_map ↔
        (p ∈ m.m_map ∧ (p.1 < b ∨ e < p.1)) ∨
        (lastVal m.m_valBegin (m.m_map.filter (fun q => q.1 < b)) ≠ v ∧ p = (b, v)) ∨
        (valueAt m.m_valBegin m.m_map e ≠ v ∧ p = (e, valueAt m.m_valBegin m.m_map e)) := by
  have hok := exists_le_of_not_beforeFirst hbe hne h1
  obtain ⟨d, l⟩ := m
  simp only at hs hne hok ⊢
  obtain ⟨A, M, C, hl, hA, hM, hC, ha⟩ := assign_general u d v hbe hs hok
  subst hl
  have hG : ∀ p ∈ M ++ C, ¬ p.1 < b := by
    intro p hp
    rcases List.mem_append.1 hp with h | h
    · exact (hM p h).1
    · exact not_lt.2 (le_of_lt (lt_trans hbe (hC p h)))
  have hP : ∀ p ∈ A ++ M, ¬ e < p.1 := by
    intro p hp
    rcases List.mem_append.1 hp with h | h
    · exact not_lt.2 (le_of_lt (lt_trans (hA p h) hbe))
    · exact (hM p h).2
  have hfA : (A ++ (M ++ C)).filter (fun q => q.1 < b) = A := filter_lt_split hA hG
  have hrv : valueAt d (A ++ (M ++ C)) e = lastVal d (A ++ M) := by
    unfold valueAt
    rw [← List.append_assoc, List.filter_append, filter_le_all hP, filter_le_none hC,
      List.append_nil]
  refine ⟨_, ha, rfl, fun p => ?_⟩
  rw [hfA, hrv]
  have hLE : p ∈ (if lastVal d A = v then [] else [(b, v)]) ↔
      (lastVal d A ≠ v ∧ p = (b, v)) := by
    split
    · rename_i h; simp [h]
    · rename_i h; simp [h]
  have hRE : p ∈ (if lastVal d (A ++ M) = v then [] else [(e, lastVal d (A ++ M))]) ↔
      (lastVal d (A ++ M) ≠ v ∧ p = (e, lastVal d (A ++ M))) := by
    split
    · rename_i h; simp [h]
    · rename_i h; simp [h]
  simp only [edges, List.mem_append, hLE, hRE]
  constructor
  · rintro (h | h | h | h)
    · exact Or.inl ⟨Or.inl h, Or.inl (hA p h)⟩
    · exact Or.inr (Or.inl h)
    · exact Or.inr (Or.inr h)
    · exact Or.inl ⟨Or.inr (Or.inr h), Or.inr (hC p h)⟩
  · rintro (⟨h | h | h, hk⟩ | h | h)
    · exact Or.inl h
    · rcases hk with hk | hk
      · exact absurd hk (hM p h).1
      · exact absurd hk (hM p h).2
    · exact Or.inr (Or.inr (Or.inr h))
    · exact Or.inr (Or.inl h)
    · exact Or.inr (Or.inr (Or.inl h))

end interval_map

namespace interval_map
open StdMap
variable {K V : Type} [LinearOrder K] [DecidableEq V]

/-- Right edge when some stored key is not above `e`: a boundary is stored at
`e` when the value `rv` looked up at `e` before the call differs from
`v`, and it then carries `rv`. -/
theorem assign_right_edge (u : PrevOfBegin K V) (m : interval_map K V) (hs : Sorted m.m_map)
    (hne : m.m_map ≠ []) {b e : K} (hbe : b < e) (v : V) (h1 : ¬ beforeFirst m b e) :
    ∃ m2 rv, m.assign u b e v = some m2 ∧ m.lookup e = some rv ∧
      ∀ w, (e, w) ∈ m2.m_map ↔ (rv ≠ v ∧ w = rv) := by
  obtain ⟨m2, ha, -, hm⟩ := assign_members u m hs hne hbe v h1
  refine ⟨m2, _, ha, lookup_eq_valueAt m hs e, fun w => ?_⟩
  rw [hm]
  constructor
  · rintro (⟨-, h | h⟩ | ⟨-, h⟩ | ⟨h, h2⟩)
    · exact absurd h (not_lt.2 (le_of_lt hbe))
    · exact absurd h (lt_irrefl _)
    · exact absurd (congrArg Prod.fst h) (ne_of_gt hbe)
    · exact ⟨h, congrArg Prod.snd h2⟩
  · rintro ⟨h, h2⟩
    exact Or.inr (Or.inr ⟨h, by rw [h2]⟩)

/-- Left edge when some stored key is not above `e`: a boundary is stored at
`b` exactly when the value in force immediately left of `b` differs from `v`, and
it then carries `v`. -/
theorem assign_left_edge (u : PrevOfBegin K V) (m : interval_map K V) (hs : Sorted m.m_map)
    (hne : m.m_map ≠ []) {b e : K} (hbe : b < e) (v : V) (h1 : ¬ beforeFirst m b e) :
    ∃ m2, m.assign u b e v = some m2 ∧
      ∀ w, (b, w) ∈ m2.m_map ↔
        (lastVal m.m_valBegin (m.m_map.filter (fun q => q.1 < b)) ≠ v ∧ w = v) := by
  obtain ⟨m2, ha, -, hm⟩ := assign_members u m hs hne hbe v h1
  refine ⟨m2, ha, fun w => ?_⟩
  rw [hm]
  constructor
  · rintro (⟨-, h | h⟩ | ⟨h, h2⟩ | ⟨-, h⟩)
    · exact absurd h (lt_irrefl _)
    · exact absurd h (not_lt.2 (le_of_lt hbe))
    · exact ⟨h, congrArg Prod.snd h2⟩
    · exact absurd (congrArg Prod.fst h) (ne_of_lt hbe)
  · rintro ⟨h, h2⟩
    exact Or.inr (Or.inl ⟨h, by rw [h2]⟩)

/-- Interior when the call is not made before the first boundary: no boundary
is left strictly between `b` and `e`, and the boundaries below `b` or above
`e` are kept. -/
theorem assign_interior (u : PrevOfBegin K V) (m : interval_map K V) (hs : Sorted m.m_map)
    {b e : K} (hbe : b < e) (v : V) (h1 : ¬ beforeFirst m b e) :
    ∃ m2, m.assign u b e v = some m2 ∧
      (∀ p ∈ m2.m_map, ¬ (b < p.1 ∧ p.1 < e)) ∧
      (∀ p ∈ m.m_map, p.1 < b ∨ e < p.1 → p ∈ m2.m_map) := by
  by_cases hne : m.m_map = []
  · obtain ⟨d, l⟩ := m
    simp only at hne
    subst hne
    refine ⟨_, assign_seed u d v hbe, ?_, by simp⟩
    intro p hp
    simp only [List.mem_cons, List.mem_singleton, List.not_mem_nil, or_false] at hp
    rcases hp with h | h
    · rw [h]; exact fun hh => lt_irrefl _ hh.1
    · rw [h]; exact fun hh => lt_irrefl _ hh.2
  · obtain ⟨m2, ha, -, hm⟩ := assign_members u m hs hne hbe v h1
    refine ⟨m2, ha, ?_, fun p hp hk => (hm p).2 (Or.inl ⟨hp, hk⟩)⟩
    intro p hp
    rcases (hm p).1 hp with ⟨-, h | h⟩ | ⟨-, h⟩ | ⟨-, h⟩
    · exact fun hh => lt_asymm h hh.1
    · exact fun hh => lt_asymm h hh.2
    · rw [h]; exact fun hh => lt_irrefl _ hh.1
    · rw [h]; exact fun hh => lt_irrefl _ hh.2

end interval_map

/-! ## Properties of the specification, continued -/

namespace interval_map
open StdMap

/-- C11, failing input.  The claim asks that one `assign` on a canonical
store with strictly increasing keys leaves a canonical store whenever the store
is non-empty or `val` differs from the default value.  The state with default
`'A'` and boundaries `(5,'B')`, `(6,'A')`, left by `assign(5,6,'B')`, is
canonical and non-empty.  The call `assign(0,1,'A')` finds every stored key
beyond `keyEnd`; `std::prev(m_map.begin())` is `begin()` itself for this
two-node tree, so the test of line 91 is false, line 96 reads `'B'` through
`prevEnd`, line 102 stores `(1,'A')` and line 113 stores `(0,'A')`: the first
stored value equals the default value and two adjacent values are equal. -/
theorem canonicality_failing_input :
    Sorted [((5 : Int), 'B'), (6, 'A')] ∧ [((5 : Int), 'B'), (6, 'A')] ≠ [] ∧ Canonical ({ m_valBegin := 'A', m_map := [(5, 'B'), (6, 'A')] } : interval_map Int Char) ∧
      assign PrevOfBegin.first ({ m_valBegin := 'A', m_map := [(5, 'B'), (6, 'A')] } : interval_map Int Char) 0 1 'A' =
        some { m_valBegin := 'A', m_map := [(0, 'A'), (1, 'A'), (5, 'B'), (6, 'A')] } ∧
      ¬ Canonical ({ m_valBegin := 'A', m_map := [(0, 'A'), (1, 'A'), (5, 'B'), (6, 'A')] } :
        interval_map Int Char) := by
  refine ⟨by unfold Sorted; decide, by decide,
    (canonical_iff _ _).2 ⟨by decide, by decide, trivial⟩, by decide, ?_⟩
  intro h
  exact h.1 (0, 'A') rfl rfl

/-- C12, failing input.  Iterator safety asks that every iterator `assign`
reads through denotes a stored boundary.  On the store `(5,'B')`, `(6,'A')`
with default `'A'` and the call `assign(0,1,'C')`: `lower_bound(0)` and
`upper_bound(1)` are both `begin()`, so `prevBegin` and `prevEnd` are
`std::prev(m_map.begin())`, which has no result by the language rules and
denotes no stored boundary; the test of line 91 is false whatever the
decrement yields, and line 96 reads `prevEnd->second`.  What it reads is the
boundary at `ptrEnd` itself when the decrement yields `begin()`, and the
content of the header when it yields the header; the store left by the call
depends on it.  After the insertion of lines 101-102, `ptrBegin` is no longer
`begin()` and line 112 reads `prevBegin->second` through the same iterator. -/
theorem iterator_safety_failing_input :
    Sorted [((5 : Int), 'B'), (6, 'A')] ∧
      lower_bound [((5 : Int), 'B'), (6, 'A')] 0 = begin [((5 : Int), 'B'), (6, 'A')] ∧ upper_bound [((5 : Int), 'B'), (6, 'A')] 1 = begin [((5 : Int), 'B'), (6, 'A')] ∧
      prev [((5 : Int), 'B'), (6, 'A')] (begin [((5 : Int), 'B'), (6, 'A')]) = none ∧
      (prev [((5 : Int), 'B'), (6, 'A')] (upper_bound [((5 : Int), 'B'), (6, 'A')] 1)).bind (deref [((5 : Int), 'B'), (6, 'A')]) = none ∧
      (∀ u : PrevOfBegin Int Char,
        ¬ ('C' = 'A' ∧ prevOn u [((5 : Int), 'B'), (6, 'A')] (lower_bound [((5 : Int), 'B'), (6, 'A')] 0) = prevOn u [((5 : Int), 'B'), (6, 'A')] (upper_bound [((5 : Int), 'B'), (6, 'A')] 1) ∧
          prevOn u [((5 : Int), 'B'), (6, 'A')] (lower_bound [((5 : Int), 'B'), (6, 'A')] 0) = end_)) ∧
      derefOn PrevOfBegin.first [((5 : Int), 'B'), (6, 'A')] (prevOn PrevOfBegin.first [((5 : Int), 'B'), (6, 'A')] (upper_bound [((5 : Int), 'B'), (6, 'A')] 1)) =
        some (5, 'B') ∧
      (∀ junk : Int × Char,
        derefOn (PrevOfBegin.header junk) [((5 : Int), 'B'), (6, 'A')]
          (prevOn (PrevOfBegin.header junk) [((5 : Int), 'B'), (6, 'A')] (upper_bound [((5 : Int), 'B'), (6, 'A')] 1)) = some junk) ∧
      assign (PrevOfBegin.header (0, 'C')) ({ m_valBegin := 'A', m_map := [(5, 'B'), (6, 'A')] } : interval_map Int Char) 0 1 'C' =
        some { m_valBegin := 'A', m_map := [(0, 'C'), (5, 'B'), (6, 'A')] } ∧
      assign (PrevOfBegin.header (0, 'D')) ({ m_valBegin := 'A', m_map := [(5, 'B'), (6, 'A')] } : interval_map Int Char) 0 1 'C' =
        some { m_valBegin := 'A', m_map := [(0, 'C'), (1, 'A'), (5, 'B'), (6, 'A')] } ∧
      lower_bound [((5 : Int), 'B'), (6, 'A')] 0 ≠ begin (insert_or_assign [((5 : Int), 'B'), (6, 'A')] 1 'A') ∧
      derefOn PrevOfBegin.first (insert_or_assign [((5 : Int), 'B'), (6, 'A')] 1 'A')
        (prevOn PrevOfBegin.first [((5 : Int), 'B'), (6, 'A')] (lower_bound [((5 : Int), 'B'), (6, 'A')] 0)) = some (5, 'B') := by
  refine ⟨by unfold Sorted; decide, by decide, by decide, by decide, by decide,
    fun _ h => absurd h.1 (by decide), by decide, fun _ => rfl, by decide, by decide,
    by decide, by decide⟩

/-- C13.  For every map whose boundary store is empty and every
`keyBegin < keyEnd` and `val`, `assign(keyBegin, keyEnd, val)` returns with
exactly the two boundaries `(keyBegin, val)` and `(keyEnd, m_valBegin)` stored,
whether or not `val` equals the default value. -/
theorem assign_empty_store_seed {K V : Type} [LinearOrder K] [DecidableEq V]
    (u : PrevOfBegin K V) (m : interval_map K V) (hm : m.m_map = []) (b e : K) (v : V)
    (hbe : b < e) :
    ∃ m2, m.assign u b e v = some m2 ∧ m2.m_valBegin = m.m_valBegin ∧
      m2.m_map = [(b, v), (e, m.m_valBegin)] := by
  obtain ⟨d, l⟩ := m
  simp only at hm
  subst hm
  exact ⟨_, assign_seed u d v hbe, rfl, rfl⟩

/-- Witness for C13: the default value itself assigned to an empty store. -/
theorem assign_empty_store_seed_witness :
    (new 'A' : interval_map Int Char).m_map = [] ∧ (0 : Int) < 1 ∧
      ∃ m2, (new 'A' : interval_map Int Char).assign PrevOfBegin.first 0 1 'A' = some m2 ∧
        m2.m_valBegin = (new 'A' : interval_map Int Char).m_valBegin ∧
        m2.m_map = [(0, 'A'), (1, (new 'A' : interval_map Int Char).m_valBegin)] :=
  ⟨rfl, by decide,
    assign_empty_store_seed PrevOfBegin.first (new 'A') rfl 0 1 'A' (by decide)⟩

/-- C14, failing input.  The right-edge claim asks that after the call a
boundary `(keyEnd, rightVal)` is stored exactly when `rightVal`, the value
looked up at `keyEnd` before the call, differs from `val`.  On the state left
from default `'A'` by `assign(10,20,'B')` and the call `assign(1,3,'B')`,
`rightVal` is `'A'` and differs from `'B'`, so `(3,'A')` should be stored.
Every stored key lies beyond `keyEnd`; `prevEnd` is
`std::prev(m_map.begin())`, `begin()` itself for this two-node tree, line 96
reads `'B'`, equal to `val`, and skips the right edge: no boundary is stored
at key `3`. -/
theorem right_edge_failing_input :
    assignAll (new 'A' : interval_map Int Char) [(PrevOfBegin.first, 10, 20, 'B')] =
        some { m_valBegin := 'A', m_map := [(10, 'B'), (20, 'A')] } ∧
      lookup ({ m_valBegin := 'A', m_map := [(10, 'B'), (20, 'A')] } : interval_map Int Char) 3 = some 'A' ∧
      assign PrevOfBegin.first ({ m_valBegin := 'A', m_map := [(10, 'B'), (20, 'A')] } : interval_map Int Char) 1 3 'B' =
        some { m_valBegin := 'A', m_map := [(1, 'B'), (10, 'B'), (20, 'A')] } ∧
      ∀ p ∈ [((1 : Int), 'B'), (10, 'B'), (20, 'A')], p.1 ≠ 3 := by
  decide

/-- C15, failing input.  The left-edge claim asks that after the call a
boundary is stored at `keyBegin` exactly when the value in force immediately
left of `keyBegin` differs from `val`.  On the store `(5,'B')`, `(6,'A')` with
default `'A'` and the call `assign(0,1,'A')`, no stored key is less than `0`,
the value left of key `0` is the default `'A'` and equals `val`, so no
boundary should be stored at key `0`.  After line 102 has stored `(1,'A')`,
`ptrBegin` is no longer `begin()`; line 112 reads `'B'` through
`prevBegin = std::prev(m_map.begin())`, `begin()` itself for this two-node
tree, and line 113 stores `(0,'A')`. -/
theorem left_edge_failing_input :
    Sorted [((5 : Int), 'B'), (6, 'A')] ∧
      lastVal 'A' ([((5 : Int), 'B'), (6, 'A')].filter (fun q => q.1 < 0)) = 'A' ∧
      assign PrevOfBegin.first ({ m_valBegin := 'A', m_map := [(5, 'B'), (6, 'A')] } : interval_map Int Char) 0 1 'A' =
        some { m_valBegin := 'A', m_map := [(0, 'A'), (1, 'A'), (5, 'B'), (6, 'A')] } ∧
      ((0 : Int), 'A') ∈ [((0 : Int), 'A'), (1, 'A'), (5, 'B'), (6, 'A')] := by
  refine ⟨by unfold Sorted; decide, by decide, by decide, by decide⟩

/-- C16, failing input.  The interior claim asks that every boundary stored
before the call at a key above `keyEnd` is still stored afterwards.  From
default `'A'`, `assign(10,20,'B')` and `assign(30,40,'C')` leave four
boundaries in a tree whose root is the node of key `20`, so
`std::prev(m_map.begin())` is the header, and a read through the header as a
`pair<const int, char>` falls on the node count: `first` is `4`, `second` is
the zero character.  The call `assign(0,4,'D')` reads them at lines 96 and 98:
`second` differs from `val` and `first` equals `keyEnd`, so line 99 sets
`ptrEnd` to `prevEnd`, which is `end()`; line 122 stores `(0,'D')` and line
128 erases every other boundary, `(10,'B')` among them. -/
theorem interior_failing_input :
    assignAll (new 'A' : interval_map Int Char)
        [(PrevOfBegin.first, 10, 20, 'B'), (PrevOfBegin.first, 30, 40, 'C')] = some ({ m_valBegin := 'A', m_map := [(10, 'B'), (20, 'A'), (30, 'C'), (40, 'A')] } :
        interval_map Int Char) ∧
      Sorted [((10 : Int), 'B'), (20, 'A'), (30, 'C'), (40, 'A')] ∧
      (((10 : Int), 'B') ∈ [((10 : Int), 'B'), (20, 'A'), (30, 'C'), (40, 'A')] ∧
        (4 : Int) < 10) ∧
      assign (PrevOfBegin.header (4, Char.ofNat 0)) ({ m_valBegin := 'A', m_map := [(10, 'B'), (20, 'A'), (30, 'C'), (40, 'A')] } :
        interval_map Int Char) 0 4 'D' =
        some { m_valBegin := 'A', m_map := [(0, 'D')] } ∧
      ((10 : Int), 'B') ∉ [((0 : Int), 'D')] := by
  refine ⟨by decide, by unfold Sorted; decide, by decide, by decide, by decide⟩

/-- C17, failing input.  The claim asks that a call with the default value
and `keyEnd` below the smallest stored key leaves the store unchanged, which
is what the comment of line 90 states.  On the store `(5,'B')`, `(6,'A')` with
default `'A'`, left by `assign(5,6,'B')`, and the call `assign(0,1,'A')`,
`prevBegin` and `prevEnd` are `std::prev(m_map.begin())`, which for this
two-node tree is `begin()` itself and not `end()`: the third test of line 91
is false, the call goes on and stores `(1,'A')` and `(0,'A')`.  The store is
left unchanged only when the decrement yields the header. -/
theorem fast_exit_failing_input :
    Sorted [((5 : Int), 'B'), (6, 'A')] ∧ [((5 : Int), 'B'), (6, 'A')] ≠ [] ∧ (0 : Int) < 1 ∧ (∀ p ∈ [((5 : Int), 'B'), (6, 'A')], (1 : Int) < p.1) ∧
      prevOn PrevOfBegin.first [((5 : Int), 'B'), (6, 'A')] (lower_bound [((5 : Int), 'B'), (6, 'A')] 0) ≠ (end_ : Option Int) ∧
      assign PrevOfBegin.first ({ m_valBegin := 'A', m_map := [(5, 'B'), (6, 'A')] } : interval_map Int Char) 0 1 'A' =
        some { m_valBegin := 'A', m_map := [(0, 'A'), (1, 'A'), (5, 'B'), (6, 'A')] } ∧
      assign PrevOfBegin.first ({ m_valBegin := 'A', m_map := [(5, 'B'), (6, 'A')] } : interval_map Int Char) 0 1 'A' ≠ some ({ m_valBegin := 'A', m_map := [(5, 'B'), (6, 'A')] } : interval_map Int Char) ∧
      ∀ junk : Int × Char, assign (PrevOfBegin.header junk) ({ m_valBegin := 'A', m_map := [(5, 'B'), (6, 'A')] } : interval_map Int Char) 0 1 'A' = some ({ m_valBegin := 'A', m_map := [(5, 'B'), (6, 'A')] } : interval_map Int Char) := by
  refine ⟨by unfold Sorted; decide, by decide, by decide, by decide, by decide, by decide,
    by decide, fun _ => rfl⟩

/-- C18.  For any two map states with the same default value whose stores
have strictly increasing keys and are canonical, if `operator[](k)` returns
equal values in both for every key `k`, then the two stores are the same
sequence of boundaries. -/
theorem canonical_store_unique {K V : Type} [LinearOrder K]
    (m1 m2 : interval_map K V) (hd : m1.m_valBegin = m2.m_valBegin)
    (hs1 : Sorted m1.m_map) (hs2 : Sorted m2.m_map) (hc1 : Canonical m1) (hc2 : Canonical m2)
    (h : ∀ k, m1.lookup k = m2.lookup k) : m1.m_map = m2.m_map := by
  obtain ⟨d1, l1⟩ := m1
  obtain ⟨d2, l2⟩ := m2
  simp only at hd hs1 hs2 ⊢
  subst hd
  rw [canonical_iff] at hc1 hc2
  refine canonicalFrom_unique d1 l1 l2 hs1 hs2 hc1 hc2 (fun k => ?_)
  have := h k
  rw [lookup_eq_valueAt _ hs1, lookup_eq_valueAt _ hs2] at this
  exact Option.some.inj this

/-- Witness for C18: the store of the demonstration scenario against itself. -/
theorem canonical_store_unique_witness :
    Sorted [((0 : Int), 'B'), (2, 'C'), (4, 'A')] ∧
      Canonical ({ m_valBegin := 'A', m_map := [(0, 'B'), (2, 'C'), (4, 'A')] } :
        interval_map Int Char) ∧
      ({ m_valBegin := 'A', m_map := [(0, 'B'), (2, 'C'), (4, 'A')] } :
        interval_map Int Char).m_map = [(0, 'B'), (2, 'C'), (4, 'A')] :=
  ⟨by unfold Sorted; decide, (canonical_iff _ _).2 ⟨by decide, by decide, by decide, trivial⟩,
    canonical_store_unique
      ({ m_valBegin := 'A', m_map := [(0, 'B'), (2, 'C'), (4, 'A')] } : interval_map Int Char)
      { m_valBegin := 'A', m_map := [(0, 'B'), (2, 'C'), (4, 'A')] } rfl
      (by unfold Sorted; decide) (by unfold Sorted; decide)
      ((canonical_iff _ _).2 ⟨by decide, by decide, by decide, trivial⟩)
      ((canonical_iff _ _).2 ⟨by decide, by decide, by decide, trivial⟩)
      (fun _ => rfl)⟩

end interval_map
